import Mathlib

/-!
# Verification of the prompt-manager synchronization core

A shallow embedding of the vault codec, the cache reconciliation pass, the
path normalizer and the debounced change watcher of the prompt-manager
repository (src/src-tauri/src).  Rust `&str` values are modelled as `List
Char`; the filesystem is a finite association list from relative path to
file text; the SQLite cache is an association-list state.  IO failures,
SQLite constraint enforcement and wall-clock time are outside the model:
filesystem reads/writes and cache statements succeed, and the watcher's
clock is an abstract `Nat` millisecond counter.
-/

deriving instance DecidableEq for Except

namespace PM

/-- Rust string slices are modelled as lists of characters. -/
abbrev Str := List Char

/-- Coerce a Lean string literal into the model's string type. -/
def S (s : String) : Str := s.data

/-- `p.isPrefixOf s` wrapper: Rust `str::starts_with` on strings. -/
def strStartsWith (s p : Str) : Bool := p.isPrefixOf s

/-- Rust `str::ends_with` on strings. -/
def strEndsWith (s p : Str) : Bool := p.isSuffixOf s

/-- Rust `str::contains` with a string pattern (substring search). -/
def containsSub : Str → Str → Bool
  | s, p =>
    p.isPrefixOf s ||
      match s with
      | [] => false
      | _ :: t => containsSub t p

/-- Rust `str::trim_start` (drop leading whitespace). -/
def trimStartL (s : Str) : Str := s.dropWhile Char.isWhitespace

/-- Rust `str::trim_end` (drop trailing whitespace). -/
def trimEndL (s : Str) : Str := (s.reverse.dropWhile Char.isWhitespace).reverse

/-- Rust `str::trim`. -/
def trimL (s : Str) : Str := trimEndL (trimStartL s)

/-- Split a string at every `'\n'`; the separators are consumed.  A string
with `n` newlines yields `n+1` segments (possibly empty). -/
def splitOnNL : Str → List Str
  | [] => [[]]
  | c :: cs =>
    if c = '\n' then [] :: splitOnNL cs
    else
      match splitOnNL cs with
      | [] => [[c]]
      | h :: t => (c :: h) :: t

/-- Strip one trailing `'\r'`, as Rust `str::lines` does on `\r\n` endings. -/
def stripCR (l : Str) : Str := if strEndsWith l (S "\r") then l.dropLast else l

/-- Post-process the segments of `splitOnNL` the way Rust `str::lines`
reports lines: every segment that was followed by a newline has a trailing
`'\r'` stripped, and a final empty segment (trailing newline) is dropped.
The final segment, when kept, is reported verbatim. -/
def linesOfAux : List Str → List Str
  | [] => []
  | [l] => if l = [] then [] else [l]
  | l :: ls => stripCR l :: linesOfAux ls

/-- Rust `str::lines` as a list of lines. -/
def linesOf (s : Str) : List Str := linesOfAux (splitOnNL s)

/-- Join lines with `'\n'`: `Vec::join("\n")`. -/
def intercalateNL (ls : List Str) : Str := List.intercalate (S "\n") ls

/-! ## Vault data model (src/src-tauri/src/vault.rs) -/

/-- `VaultError` from vault.rs. -/
inductive VaultError where
  | NotConfigured
  | NotFound (msg : Str)
  | PathNotFound (msg : Str)
  | IoError (msg : Str)
  | ParseError (msg : Str)
  | SerializeError (msg : Str)
  | InvalidFilename (msg : Str)
  | InvalidFilePath (msg : Str)
  | FileAlreadyExists (msg : Str)
  | InvalidContent (msg : Str)
  deriving DecidableEq, Repr

/-- `PromptFile` from vault.rs: one parsed markdown prompt file. -/
structure PromptFile where
  id : Str
  file_path : Str
  tags : List Str
  created : Option Str
  content : Str
  file_hash : Option Str
  title : Option Str
  description : Option Str
  deriving DecidableEq, Repr

/-- Modelled from the spec: `FrontmatterSettings` is consumed from the
excluded config collaborator (the copy of config.rs in this snapshot
predates it); the spec lists exactly a tag-frontmatter-key name and a
boolean toggle for mirroring a fixed marker tag into a generic tags field.
Field names follow the uses in vault.rs. -/
structure FrontmatterSettings where
  prompt_tags_property : Str
  add_prompts_tag_to_tags : Bool
  deriving DecidableEq, Repr

/-- `normalize_relative_path` from vault.rs: validate and canonicalize a
caller-supplied relative file name. -/
def normalize_relative_path (path : Str) : Except VaultError Str :=
  let trimmed := trimL path
  if trimmed = [] then
    .error (.InvalidFilePath (S "empty path"))
  else if containsSub trimmed (S "..") then
    .error (.InvalidFilePath (S "path traversal"))
  else if strStartsWith trimmed (S "/") || strStartsWith trimmed (S "\\") then
    .error (.InvalidFilePath (S "absolute path"))
  else if trimmed.contains '/' || trimmed.contains '\\' then
    .error (.InvalidFilePath (S "subfolders are not supported"))
  else if strEndsWith trimmed (S ".md") then
    .ok trimmed
  else
    .ok (trimmed ++ S ".md")

/-- The fence string remembered when a `\x60\x60\x60prompt` / `~~~prompt`
opener is seen (vault.rs picks `~~~` when the trimmed line starts with it,
else backticks). -/
def fenceOf (t : Str) : Str := if strStartsWith t (S "~~~") then S "~~~" else S "```"

/-- Does this line (after `trim_start`) open a prompt fence?  This is the
condition of the first branch of both line loops of vault.rs. -/
def opensPrompt (l : Str) : Bool :=
  strStartsWith (trimStartL l) (S "```prompt") || strStartsWith (trimStartL l) (S "~~~prompt")

/-- Does this line (after `trim_start`) start with the remembered fence
string?  This is the closing condition of both line loops of vault.rs. -/
def closesWith (l fence : Str) : Bool := strStartsWith (trimStartL l) fence

/-- The line loop of `extract_code_block_content`: `inB` is `in_block`,
`fence` the remembered fence string (initially the empty string, as in the
source).  An opening line always re-enters the block with a fresh fence; a
line starting (after trim) with the current fence while in the block stops
the loop; other lines are collected while in the block. -/
def extractGo : List Str → Bool → Str → List Str
  | [], _, _ => []
  | l :: ls, inB, fence =>
    if opensPrompt l then
      extractGo ls true (fenceOf (trimStartL l))
    else if inB && closesWith l fence then
      []
    else if inB then
      l :: extractGo ls inB fence
    else
      extractGo ls inB fence

/-- `extract_code_block_content` from vault.rs. -/
def extract_code_block_content (markdown : Str) : Str :=
  intercalateNL (extractGo (linesOf markdown) false [])

/-- Index (and fence string) of the first line opening a prompt fence, as
searched by `update_prompt_block`. -/
def findOpen : List Str → Option (Nat × Str)
  | [] => none
  | l :: ls =>
    if opensPrompt l then
      some (0, fenceOf (trimStartL l))
    else
      (findOpen ls).map (fun p => (p.1 + 1, p.2))

/-- Index of the first line whose `trim_start` starts with `fence`, as
searched by `update_prompt_block` after the opening line. -/
def findClose (fence : Str) : List Str → Option Nat
  | [] => none
  | l :: ls =>
    if closesWith l fence then some 0
    else (findClose fence ls).map (· + 1)

/-- The append branch of `update_prompt_block`: trim the body's end, add a
blank separator when non-empty, and append a brand-new fenced block. -/
def appendNewBlock (body newContent : Str) : Str :=
  let base := trimEndL body
  (if base = [] then [] else base ++ S "\n\n") ++ S "```prompt\n" ++ newContent ++ S "\n```\n"

/-- `update_prompt_block` from vault.rs: replace the interior of the first
closed prompt fence block with the new content's lines (`splice` of the
range `(start+1)..end`), or append a new block when no closed block
exists.  The body is re-joined with `'\n'`. -/
def update_prompt_block (body newContent : Str) : Str :=
  match findOpen (linesOf body) with
  | some (startIdx, fence) =>
    match findClose fence ((linesOf body).drop (startIdx + 1)) with
    | some k =>
      intercalateNL ((linesOf body).take (startIdx + 1)
        ++ (if newContent = [] then [] else linesOf newContent)
        ++ (linesOf body).drop (startIdx + 1 + k))
    | none => appendNewBlock body newContent
  | none => appendNewBlock body newContent

/-! ## Frontmatter codec (gray_matter + serde_yaml model)

Frontmatter values are modelled by the fragment the codec reads and
writes: plain strings and sequences of strings.  The renderer mirrors
serde_yaml's block style for these forms (`key: value`, `key:` followed by
`- item` lines, `key: []` for an empty sequence, single-quoted scalars
with doubled inner quotes when the plain form would be ambiguous); the
parser inverts it and is lenient on unknown input, like the code's
`deserialize().ok().unwrap_or_else(Mapping::new)`. -/

/-- A frontmatter YAML value (restricted to the forms the codec touches). -/
inductive Yaml where
  | str (s : Str)
  | seq (items : List Str)
  deriving DecidableEq, Repr

/-- `serde_yaml::Mapping`: an ordered map from string key to value. -/
abbrev YMap := List (Str × Yaml)

/-- Ordered-map lookup (`Mapping::get`). -/
def lookupY : YMap → Str → Option Yaml
  | [], _ => none
  | (k', v) :: t, k => if k' = k then some v else lookupY t k

/-- Ordered-map insert (`Mapping::insert`): replace in place, else append. -/
def insertY : YMap → Str → Yaml → YMap
  | [], k, v => [(k, v)]
  | (k', v') :: t, k, v => if k' = k then (k, v) :: t else (k', v') :: insertY t k v

/-- Ordered-map remove (`Mapping::remove`). -/
def removeY : YMap → Str → YMap
  | [], _ => []
  | (k', v') :: t, k => if k' = k then removeY t k else (k', v') :: removeY t k

/-- `normalize_frontmatter_key` from vault.rs. -/
def normalize_frontmatter_key (key : Str) : Str :=
  let trimmed := trimL key
  if trimmed = [] then S "tags" else trimmed

/-- `normalize_tag` from vault.rs: trim, strip each leading `#`, trim; an
empty result is rejected. -/
def normalize_tag (tag : Str) : Option Str :=
  let normalized := trimL ((trimL tag).dropWhile (· = '#'))
  if normalized = [] then none else some normalized

/-- `extract_string` from vault.rs (`value.as_str()` succeeds only on a
string scalar). -/
def extract_string (map : YMap) (key : Str) : Option Str :=
  match lookupY map key with
  | some (.str s) => some s
  | _ => none

/-- Split at every separator character (Rust `str::split` with a predicate;
empty tokens are produced and later dropped by `normalize_tag`). -/
def splitOnP (p : Char → Bool) : Str → List Str
  | [] => [[]]
  | c :: cs =>
    if p c then [] :: splitOnP p cs
    else
      match splitOnP p cs with
      | [] => [[c]]
      | h :: t => (c :: h) :: t

/-- `extract_tags` from vault.rs: a sequence is normalized item-wise, a
string scalar is split on commas and whitespace first. -/
def extract_tags (map : YMap) (key : Str) : List Str :=
  match lookupY map key with
  | none => []
  | some (.seq items) => items.filterMap normalize_tag
  | some (.str text) =>
      (splitOnP (fun c => c = ',' || c.isWhitespace) text).filterMap normalize_tag

/-- `set_tags` from vault.rs: store the normalized tags as a sequence. -/
def set_tags (map : YMap) (key : Str) (tags : List Str) : YMap :=
  insertY map key (.seq (tags.filterMap normalize_tag))

/-- Quote-escaping for single-quoted YAML scalars (double each quote). -/
def escQ : Str → Str
  | [] => []
  | c :: t => if c = '\'' then '\'' :: '\'' :: escQ t else c :: escQ t

/-- Does a scalar need quoting to round-trip through the model's line
grammar (empty string, the `[]` form, or a leading quote)? -/
def needsQuote (v : Str) : Bool := v = [] || v = S "[]" || strStartsWith v (S "'")

/-- Render a scalar: plain if unambiguous, else single-quoted. -/
def renderScalar (v : Str) : Str :=
  if needsQuote v then '\'' :: escQ v ++ ['\''] else v

/-- Invert a complete single-quoted scalar (`none` on ill-formed input). -/
def unquoteAux : Str → Option Str
  | [] => none
  | ['\''] => some []
  | '\'' :: '\'' :: t => (unquoteAux t).map ('\'' :: ·)
  | '\'' :: _ :: _ => none
  | c :: t => (unquoteAux t).map (c :: ·)

/-- Strip one level of single quotes from a scalar, if well formed. -/
def unquote (r : Str) : Option Str :=
  match r with
  | '\'' :: rest => unquoteAux rest
  | _ => none

/-- Parse the text after `: ` on a mapping line. -/
def parseScalar (r : Str) : Yaml :=
  if r = S "[]" then .seq []
  else if strStartsWith r (S "'") then
    match unquote r with
    | some v => .str v
    | none => .str r
  else .str r

/-- Parse the text after `- ` on a sequence-item line. -/
def parseItem (r : Str) : Str :=
  if strStartsWith r (S "'") then (unquote r).getD r else r

/-- Render one mapping entry as its block-style lines. -/
def renderPair : Str × Yaml → List Str
  | (k, .str s) => [k ++ S ": " ++ renderScalar s]
  | (k, .seq []) => [k ++ S ": []"]
  | (k, .seq items) => (k ++ [':']) :: items.map (fun it => S "- " ++ renderScalar it)

/-- Render a mapping as its block-style lines. -/
def renderYamlLines (m : YMap) : List Str := (m.map renderPair).flatten

/-- Is this a sequence-item line? -/
def isItemLine (l : Str) : Bool := strStartsWith l (S "- ")

/-- Split a mapping line at its first colon; the key must be non-empty and
not start with a space. -/
def splitKeyLine (l : Str) : Option (Str × Str) :=
  let k := l.takeWhile (· ≠ ':')
  match l.dropWhile (· ≠ ':') with
  | ':' :: r => if k = [] || k.head? = some ' ' then none else some (k, r)
  | _ => none

/-- Finish a pending block sequence. -/
def flushPending (pending : Option (Str × List Str)) (acc : YMap) : YMap :=
  match pending with
  | none => acc
  | some (k, items) => insertY acc k (.seq items)

/-- Line-by-line mapping parser (the model of `serde_yaml` deserialization
into a `Mapping` restricted to the rendered fragment; `none` on input
outside the fragment). -/
def yamlParseGo : List Str → Option (Str × List Str) → YMap → Option YMap
  | [], pending, acc => some (flushPending pending acc)
  | l :: ls, pending, acc =>
    if l = [] then yamlParseGo ls none (flushPending pending acc)
    else if isItemLine l then
      match pending with
      | some (k, items) => yamlParseGo ls (some (k, items ++ [parseItem (l.drop 2)])) acc
      | none => none
    else
      match splitKeyLine l with
      | none => none
      | some (k, rest) =>
        let acc' := flushPending pending acc
        if rest = [] then yamlParseGo ls (some (k, [])) acc'
        else if rest.head? = some ' ' then
          yamlParseGo ls none (insertY acc' k (parseScalar (rest.drop 1)))
        else none

/-- `parsed.data.and_then(deserialize).unwrap_or_else(Mapping::new)`:
absent or undeserializable frontmatter yields the empty mapping. -/
def parse_frontmatter_map (mdata : Option (List Str)) : YMap :=
  match mdata with
  | none => []
  | some ls => (yamlParseGo ls none []).getD []

/-- Find the closing `---` segment; returns the segments before and after. -/
def splitAtDelim : List Str → Option (List Str × List Str)
  | [] => none
  | l :: ls =>
    if l = S "---" then some ([], ls)
    else (splitAtDelim ls).map (fun p => (l :: p.1, p.2))

/-- `Matter::<YAML>::parse` model: a file starting with a `---` line and
containing a later closing `---` line splits into frontmatter lines and
the remaining text; otherwise there is no frontmatter and the content is
the whole input. -/
def matterParse (s : Str) : Option (List Str) × Str :=
  match splitOnNL s with
  | [] => (none, s)
  | first :: rest =>
    if first = S "---" then
      match splitAtDelim rest with
      | some (fmLines, after) => (some fmLines, intercalateNL after)
      | none => (none, s)
    else (none, s)

/-- `parse_existing_prompt` from vault.rs. -/
def parse_existing_prompt (existing : Option Str) : YMap × Str :=
  match existing with
  | some content => (parse_frontmatter_map (matterParse content).1, (matterParse content).2)
  | none => ([], [])

/-- Join lines, terminating each with a newline. -/
def joinTerm (ls : List Str) : Str := (ls.map (fun l => l ++ S "\n")).flatten

/-- `serde_yaml::to_string` on a mapping: block-style lines, each ended by
a newline; the empty mapping renders as `\x7b\x7d`. -/
def yamlToString (m : YMap) : Str :=
  if m = [] then S "{}\n" else joinTerm (renderYamlLines m)

/-- `trim_start_matches("---\n")` (repeated prefix removal). -/
def stripDashes : Str → Str
  | '-' :: '-' :: '-' :: '\n' :: rest => stripDashes rest
  | s => s

/-- The `starts_with("---")` strip step of `render_frontmatter`. -/
def stripIfDashes (y : Str) : Str :=
  if strStartsWith y (S "---") then stripDashes y else y

/-- The ends-with-newline step of `render_frontmatter`. -/
def ensureNL (y : Str) : Str :=
  if strEndsWith y (S "\n") then y else y ++ S "\n"

/-- `render_frontmatter` from vault.rs. -/
def render_frontmatter (map : YMap) : Str :=
  S "---\n" ++ ensureNL (stripIfDashes (yamlToString map)) ++ S "---\n\n"

/-! ## Filesystem model and the vault operations -/

/-- The vault directory: relative path ↦ file text. -/
abbrev FS := List (Str × Str)

/-- Look up a file. -/
def lookupFS : FS → Str → Option Str
  | [], _ => none
  | (p, c) :: t, q => if p = q then some c else lookupFS t q

/-- `fs::write`: overwrite or create. -/
def insertFS : FS → Str → Str → FS
  | [], p, c => [(p, c)]
  | (p', c') :: t, p, c => if p' = p then (p, c) :: t else (p', c') :: insertFS t p c

/-- `fs::remove_file`. -/
def removeFS : FS → Str → FS
  | [], _ => []
  | (p', c') :: t, p => if p' = p then removeFS t p else (p', c') :: removeFS t p

/-- SHA-256 hex digest of the file text, modelled as an abstract injective
tagging of the text: no claim inspects digest values, only where they are
stored. -/
def compute_file_hash (content : Str) : Str := S "sha256:" ++ content

/-- `read_prompt_file` from vault.rs, on the file at `relative_path` (the
Rust function receives the absolute path and strips the vault prefix; the
model works with the relative path directly).  A missing file is the
model's only `IoError`. -/
def read_prompt_file (fs : FS) (relative_path : Str) (settings : FrontmatterSettings) :
    Except VaultError PromptFile :=
  match lookupFS fs relative_path with
  | none => .error (.IoError (S "no such file"))
  | some content =>
    .ok { id := relative_path,
          file_path := relative_path,
          tags := extract_tags (parse_frontmatter_map (matterParse content).1)
            (normalize_frontmatter_key settings.prompt_tags_property),
          created := extract_string (parse_frontmatter_map (matterParse content).1) (S "created"),
          content := extract_code_block_content (matterParse content).2,
          file_hash := some (compute_file_hash content),
          title := extract_string (parse_frontmatter_map (matterParse content).1) (S "title"),
          description := extract_string (parse_frontmatter_map (matterParse content).1)
            (S "description") }

/-- `find_prompt_by_id` from vault.rs; `vault = none` models a missing
vault directory. -/
def find_prompt_by_id (vault : Option FS) (id : Str) (settings : FrontmatterSettings) :
    Except VaultError PromptFile :=
  match vault with
  | none => .error (.PathNotFound (S "<vault>"))
  | some fs =>
    match normalize_relative_path id with
    | .error e => .error e
    | .ok relative_path =>
      match read_prompt_file fs relative_path settings with
      | .ok p => .ok p
      | .error _ => .error (.NotFound id)

/-- The `created` merge of `write_prompt_file`: caller value, else prior
frontmatter value, else the current timestamp. -/
def withCreated (fm0 : YMap) (now : Str) (prompt : PromptFile) : YMap :=
  insertY fm0 (S "created")
    (.str ((prompt.created.orElse (fun _ => extract_string fm0 (S "created"))).getD now))

/-- The tag-key merge of `write_prompt_file`. -/
def withTags (fm : YMap) (settings : FrontmatterSettings) (prompt : PromptFile) : YMap :=
  set_tags fm (normalize_frontmatter_key settings.prompt_tags_property) prompt.tags

/-- The optional mirroring of a `prompts` marker tag into the generic
`tags` key. -/
def withPromptsMirror (fm : YMap) (settings : FrontmatterSettings) : YMap :=
  if settings.add_prompts_tag_to_tags then
    set_tags fm (S "tags")
      (if (extract_tags fm (S "tags")).contains (S "prompts") then extract_tags fm (S "tags")
       else extract_tags fm (S "tags") ++ [S "prompts"])
  else fm

/-- The `title` merge of `write_prompt_file`: set when non-blank, else
remove. -/
def withTitle (fm : YMap) (prompt : PromptFile) : YMap :=
  match prompt.title.filter (fun t => !(trimL t).isEmpty) with
  | some t => insertY fm (S "title") (.str t)
  | none => removeY fm (S "title")

/-- The `description` merge of `write_prompt_file`. -/
def withDescription (fm : YMap) (prompt : PromptFile) : YMap :=
  match prompt.description.filter (fun d => !(trimL d).isEmpty) with
  | some d => insertY fm (S "description") (.str d)
  | none => removeY fm (S "description")

/-- The full frontmatter merge of `write_prompt_file`: created, tag key,
optional mirror, title, description, and the unconditional removal of a
stored `id` key. -/
def mergedFrontmatter (fm0 : YMap) (now : Str) (settings : FrontmatterSettings)
    (prompt : PromptFile) : YMap :=
  removeY
    (withDescription
      (withTitle (withPromptsMirror (withTags (withCreated fm0 now prompt) settings prompt)
        settings) prompt) prompt)
    (S "id")

/-- `write_prompt_file` from vault.rs; `now` stands for the
`Utc::now()` timestamp string.  Returns the updated vault on success. -/
def write_prompt_file (fs : FS) (now : Str) (settings : FrontmatterSettings)
    (prompt : PromptFile) : Except VaultError FS :=
  if containsSub prompt.content (S "```") || containsSub prompt.content (S "~~~") then
    .error (.InvalidContent (S "Prompt content cannot include ``` or ~~~"))
  else
    match normalize_relative_path prompt.file_path with
    | .error e => .error e
    | .ok relative_path =>
      .ok (insertFS fs relative_path
        (render_frontmatter
            (mergedFrontmatter (parse_existing_prompt (lookupFS fs relative_path)).1 now
              settings prompt)
          ++ update_prompt_block (parse_existing_prompt (lookupFS fs relative_path)).2
              prompt.content))

/-- `delete_prompt_file` from vault.rs. -/
def delete_prompt_file (fs : FS) (id : Str) : Except VaultError FS :=
  match normalize_relative_path id with
  | .error e => .error e
  | .ok relative_path =>
    match lookupFS fs relative_path with
    | none => .error (.PathNotFound relative_path)
    | some _ => .ok (removeFS fs relative_path)

/-- Does the file name have the `.md` extension (`Path::extension() ==
Some("md")`; a bare `.md` has no stem and no extension)? -/
def hasMdExt (name : Str) : Bool := strEndsWith name (S ".md") && decide (3 < name.length)

/-- `scan_vault` from vault.rs: keep the `.md` entries, parse each, skip
per-file failures. -/
def scan_vault (vault : Option FS) (settings : FrontmatterSettings) :
    Except VaultError (List PromptFile) :=
  match vault with
  | none => .error (.PathNotFound (S "<vault>"))
  | some fs =>
    .ok ((fs.filter (fun e => hasMdExt e.1)).filterMap
      (fun e => (read_prompt_file fs e.1 settings).toOption))

/-! ## Cache layer (src/src-tauri/src/db/queries.rs, models.rs)

The SQLite engine is modelled by association-list tables.  Constraint
enforcement (NOT NULL, UNIQUE) and statement failures are outside the
model: every statement succeeds, which is what the reconciliation claims
quantify over ("the record returned by sync_vault"). -/

/-- `DbError` from models.rs. -/
inductive DbError where
  | Database (msg : Str)
  | NotFound (msg : Str)
  | Serialization (msg : Str)
  deriving DecidableEq, Repr

/-- The column list of `CREATE_PROMPTS_TABLE` / `UPSERT_PROMPT`
(queries.rs): `INSERT INTO prompts (id, created_at, title, text,
description, mode) VALUES (?, ?, ?, ?, ?, ?)`. -/
def upsertPromptColumns : List Str :=
  [S "id", S "created_at", S "title", S "text", S "description", S "mode"]

/-- The six values `sync_vault` binds to `UPSERT_PROMPT`, in bind order
(commands.rs lines 701–709): file_path, created, content, title,
Some(file_path), file_hash. -/
def syncUpsertBinds (file : PromptFile) : List (Option Str) :=
  [some file.file_path, file.created, some file.content, file.title,
   some file.file_path, file.file_hash]

/-- The row a parameterized INSERT produces: positional zip of the
statement's column list with the bound values. -/
def boundRow (cols : List Str) (binds : List (Option Str)) : List (Str × Option Str) :=
  cols.zip binds

/-- Look up a column of a bound row. -/
def lookupCol : List (Str × Option Str) → Str → Option (Option Str)
  | [], _ => none
  | (c, v) :: t, k => if c = k then some v else lookupCol t k

/-- A row of the `prompts` table, with the columns of
`CREATE_PROMPTS_TABLE`.  `text` and `mode` are declared NOT NULL in the
schema; the model stores what the statements bind without enforcing it. -/
structure PromptRowM where
  id : Str
  created_at : Option Str
  title : Option Str
  text : Option Str
  description : Option Str
  mode : Option Str
  deriving DecidableEq, Repr

/-- The `prompts` row `sync_vault`'s bindings build for a scanned file
(positional: content lands in `title`, title in `text`, the path in
`description`, the hash in `mode`). -/
def rowOfBinds (file : PromptFile) : PromptRowM :=
  { id := file.file_path
    created_at := file.created
    title := some file.content
    text := file.title
    description := some file.file_path
    mode := file.file_hash }

/-- The whole cache: `prompts`, `tags(id, name)` and
`prompt_tags(prompt_id, tag_id)`. -/
structure CacheState where
  prompts : List PromptRowM
  tags : List (Str × Str)
  prompt_tags : List (Str × Str)
  deriving DecidableEq, Repr

/-- `UPSERT_PROMPT`: insert, or on id conflict update `title`, `text`,
`description`, `mode` (not `created_at`). -/
def upsertPromptRow (ps : List PromptRowM) (r : PromptRowM) : List PromptRowM :=
  if ps.any (fun p => p.id = r.id) then
    ps.map (fun p =>
      if p.id = r.id then
        { p with title := r.title, text := r.text, description := r.description, mode := r.mode }
      else p)
  else ps ++ [r]

/-- `DELETE_PROMPT` plus the `ON DELETE CASCADE` of `prompt_tags`
(foreign keys are enabled in db/mod.rs). -/
def deletePromptId (c : CacheState) (id : Str) : CacheState :=
  { c with
    prompts := c.prompts.filter (fun p => p.id ≠ id)
    prompt_tags := c.prompt_tags.filter (fun pt => pt.1 ≠ id) }

/-- `get_or_create_tag` (commands.rs): look up by exact name, else insert
with a fresh id; the Uuid source is modelled by a counter. -/
def get_or_create_tag (tags : List (Str × Str)) (ctr : Nat) (name : Str) :
    Str × List (Str × Str) × Nat :=
  match tags.find? (fun t => t.2 = name) with
  | some t => (t.1, tags, ctr)
  | none =>
    let id := S ("uuid-" ++ toString ctr)
    (id, tags ++ [(id, name)], ctr + 1)

/-- `INSERT_PROMPT_TAG` with `ON CONFLICT DO NOTHING`. -/
def insertPromptTag (pts : List (Str × Str)) (pid tid : Str) : List (Str × Str) :=
  if (pid, tid) ∈ pts then pts else pts ++ [(pid, tid)]

/-- One iteration of the tag-insertion loop: `get_or_create_tag` then
`INSERT_PROMPT_TAG`. -/
def tagStep (pid : Str) (acc : CacheState × Nat) (name : Str) : CacheState × Nat :=
  ({ acc.1 with
      tags := (get_or_create_tag acc.1.tags acc.2 name).2.1
      prompt_tags := insertPromptTag acc.1.prompt_tags pid
        (get_or_create_tag acc.1.tags acc.2 name).1 },
   (get_or_create_tag acc.1.tags acc.2 name).2.2)

/-- `DELETE_PROMPT_TAGS` for one id, then re-insert one association per
tag name (the tag-replacement loop of `sync_vault` / `save_prompt`). -/
def replaceTagsFor (c : CacheState) (ctr : Nat) (pid : Str) (names : List Str) :
    CacheState × Nat :=
  names.foldl (tagStep pid)
    ({ c with prompt_tags := c.prompt_tags.filter (fun pt => pt.1 ≠ pid) }, ctr)

/-- `SyncStats` from commands.rs. -/
structure SyncStats where
  found : Nat
  updated : Nat
  deleted : Nat
  deriving DecidableEq, Repr

/-- The ids scanned in this pass (`found_ids`). -/
def foundIds (files : List PromptFile) : List Str := files.map (·.file_path)

/-- One iteration of step 2 of `sync_vault`: upsert the file's row, then
replace its tag associations. -/
def syncFileStep (acc : CacheState × Nat) (file : PromptFile) : CacheState × Nat :=
  replaceTagsFor { acc.1 with prompts := upsertPromptRow acc.1.prompts (rowOfBinds file) }
    acc.2 file.file_path file.tags

/-- Step 2 of `sync_vault`: unconditionally upsert every scanned file and
replace its tag associations. -/
def syncUpsertPhase (files : List PromptFile) (c : CacheState) (ctr : Nat) :
    CacheState × Nat :=
  files.foldl syncFileStep (c, ctr)

/-- Step 3 of `sync_vault`: walk the snapshot of cached ids and delete
every id not found in this pass, counting deletions. -/
def pruneGo (found : List Str) : List Str → CacheState → Nat → CacheState × Nat
  | [], c, n => (c, n)
  | id :: ids, c, n =>
    if id ∈ found then pruneGo found ids c n
    else pruneGo found ids (deletePromptId c id) (n + 1)

/-- Step 3 of `sync_vault`, from the current table. -/
def syncPrunePhase (found : List Str) (c : CacheState) : CacheState × Nat :=
  pruneGo found (c.prompts.map (·.id)) c 0

/-- `sync_vault` (commands.rs) after the scan: upsert all, prune, report
`found = |files|`, `updated = found` ("Effectively all found are updated
via upsert"), `deleted` = prune count. -/
def sync_vault (files : List PromptFile) (c : CacheState) (ctr : Nat) :
    CacheState × SyncStats × Nat :=
  ((syncPrunePhase (foundIds files) (syncUpsertPhase files c ctr).1).1,
   { found := files.length
     updated := files.length
     deleted := (syncPrunePhase (foundIds files) (syncUpsertPhase files c ctr).1).2 },
   (syncUpsertPhase files c ctr).2)

/-- The `file_path` the `delete_prompt` command reads off the cached row.
In the schema as built by the upsert bindings the path value is stored in
the `description` column (see the C2 analysis); the command's intent is
the row's file path. -/
def rowFilePath (r : PromptRowM) : Option Str := r.description

/-- `delete_prompt` (commands.rs): resolve the row's file path (falling
back to the id), attempt the filesystem delete, treat `PathNotFound` as
benign, abort on any other error before touching the cache, then delete
the cache row.  State-passing: the returned vault and cache are unchanged
on abort. -/
def delete_prompt (vault : FS) (c : CacheState) (id : Str) :
    Except DbError Unit × FS × CacheState :=
  match delete_prompt_file vault
      (((c.prompts.find? (fun p => p.id = id)).bind rowFilePath).getD id) with
  | .ok fs' => (.ok (), fs', deletePromptId c id)
  | .error (.PathNotFound _) => (.ok (), vault, deletePromptId c id)
  | .error _ => (.error (.Database (S "Failed to delete from vault")), vault, c)

/-! ## Change watcher (src/src-tauri/src/vault_watcher.rs)

The event callback's clock is modelled as a `Nat` millisecond counter;
`last.elapsed()` is `now - lastEmit` (saturating, as `Instant` is
monotone). -/

/-- One watcher callback run: drop the event when less than 250ms have
elapsed since the last emission (no state change), else update the
timestamp and emit. -/
def debounceStep (lastEmit now : Nat) : Bool × Nat :=
  if now - lastEmit < 250 then (false, lastEmit) else (true, now)

/-- The emission trace over a sequence of event times. -/
def emitTrace (lastEmit : Nat) : List Nat → List Bool
  | [] => []
  | t :: ts =>
    let s := debounceStep lastEmit t
    s.1 :: emitTrace s.2 ts

/-- Number of "vault changed" signals emitted over a sequence of events. -/
def countEmits (lastEmit : Nat) (ts : List Nat) : Nat := (emitTrace lastEmit ts).count true

/-- The watcher state's initial timestamp: `Instant::now() - 60s`. -/
def initialLastEmit (now : Nat) : Nat := now - 60000

/-! ## Claim-side definitions and helpers for the theorems -/

/-- The extraction rule exactly as the spec sentence behind C7 states it:
the lines strictly between the first opening fence line and the first
subsequent line starting (after trim) with the remembered fence string,
joined verbatim; to the end of the body when no such line exists; empty
when there is no opening fence. -/
def claimedExtract (markdown : Str) : Str :=
  match findOpen (linesOf markdown) with
  | none => []
  | some (i, fence) =>
    match findClose fence ((linesOf markdown).drop (i + 1)) with
    | none => intercalateNL ((linesOf markdown).drop (i + 1))
    | some j => intercalateNL (((linesOf markdown).drop (i + 1)).take j)

/-- Order-insensitive equality of tag lists ("tag sets equal"). -/
def sameSetB (a b : List Str) : Bool := a.all (· ∈ b) && b.all (· ∈ a)

/-- `write_prompt_file` followed by `read_prompt_file(P.id)`, the pipeline
of the round-trip claim. -/
def writeThenRead (fs : FS) (now : Str) (st : FrontmatterSettings) (P : PromptFile) :
    Option PromptFile :=
  match write_prompt_file fs now st P with
  | .ok fs' => (find_prompt_by_id (some fs') P.id st).toOption
  | .error _ => none

/-- The frontmatter mapping of the file currently stored at `p`. -/
def frontmatterOf (fs : FS) (p : Str) : YMap :=
  (parse_existing_prompt (lookupFS fs p)).1

/-- A body is fence-safe for the round-trip when it has no opening prompt
fence, or its first opening fence has a closing line that is not itself an
opening fence (the configurations in which replace-then-extract returns
the replacement). -/
def fenceSafeB (lines : List Str) : Bool :=
  match findOpen lines with
  | none => true
  | some (i, fence) =>
    match findClose fence (lines.drop (i + 1)) with
    | none => false
    | some j =>
      match (lines.drop (i + 1)).get? j with
      | none => false
      | some cl => !(opensPrompt cl)

/-- A frontmatter key the model's line grammar round-trips: non-empty, no
colon, no newline, no leading space, not an item-line prefix. -/
def wfKey (k : Str) : Prop :=
  k ≠ [] ∧ ':' ∉ k ∧ '\n' ∉ k ∧ k.head? ≠ some ' ' ∧ strStartsWith k (S "- ") = false

instance (k : Str) : Decidable (wfKey k) := by unfold wfKey; infer_instance

/-- A frontmatter value the model's line grammar round-trips: single-line
strings. -/
def wfVal : Yaml → Prop
  | .str s => '\n' ∉ s
  | .seq items => ∀ it ∈ items, '\n' ∉ it

instance (v : Yaml) : Decidable (wfVal v) := by cases v <;> (unfold wfVal; infer_instance)

/-- A well-formed mapping: keys and values round-trip and keys are
distinct. -/
def WfMap (m : YMap) : Prop :=
  (∀ p ∈ m, wfKey p.1 ∧ wfVal p.2) ∧ (m.map Prod.fst).Nodup

instance (m : YMap) : Decidable (WfMap m) := by unfold WfMap; infer_instance

/-- The keys the codec owns when writing (everything else must pass
through untouched). -/
def recognizedKeys (st : FrontmatterSettings) : List Str :=
  [S "created", normalize_frontmatter_key st.prompt_tags_property, S "title",
   S "description", S "id"]

/-- The default frontmatter settings (tag key `tags`, mirroring off). -/
def defaultSettings : FrontmatterSettings :=
  { prompt_tags_property := S "tags", add_prompts_tag_to_tags := false }

/-- Convenience constructor for concrete prompt files in witnesses. -/
def mkPrompt (path : Str) (tags : List Str) (created : Option Str) (content : Str)
    (title description : Option Str) : PromptFile :=
  { id := path, file_path := path, tags := tags, created := created, content := content,
    file_hash := none, title := title, description := description }

/-! ## Theorems -/

/-- C6: for every prompt whose content contains a fence sequence,
`write_prompt_file` fails with `InvalidContent`; the guard is the first
statement of the function, so the error is returned before any filesystem
write (in the state-passing model an error result carries no new
filesystem, and the second conjunct states no success is possible). -/
theorem write_prompt_file_content_guard (fs : FS) (now : Str) (st : FrontmatterSettings)
    (p : PromptFile)
    (h : containsSub p.content (S "```") = true ∨ containsSub p.content (S "~~~") = true) :
    write_prompt_file fs now st p
        = .error (.InvalidContent (S "Prompt content cannot include ``` or ~~~")) ∧
      ∀ fs', write_prompt_file fs now st p ≠ .ok fs' := by
  have hg : (containsSub p.content (S "```") || containsSub p.content (S "~~~")) = true := by
    rcases h with h | h <;> simp [h]
  refine ⟨?_, ?_⟩
  · unfold write_prompt_file
    simp [hg]
  · intro fs'
    unfold write_prompt_file
    simp [hg]

/-- Witness for C6 at a concrete fence-containing prompt. -/
theorem write_prompt_file_content_guard_witness :
    write_prompt_file [] (S "T") defaultSettings (mkPrompt (S "a.md") [] none (S "x```y") none none)
      = .error (.InvalidContent (S "Prompt content cannot include ``` or ~~~")) :=
  (write_prompt_file_content_guard [] (S "T") defaultSettings
    (mkPrompt (S "a.md") [] none (S "x```y") none none) (Or.inl (by decide))).1

/-- C2: the `prompts` table of queries.rs has columns `(id, created_at,
title, text, description, mode)` — no `file_path` or `file_hash` column —
and the bind order of `sync_vault` places the entry's content in the
`title` column, its title in the NOT-NULL `text` column, its path in
`description` and its hash in `mode`; for an untitled file the `text`
column receives NULL. -/
theorem sync_upsert_schema_mismatch :
    (∀ file : PromptFile,
      lookupCol (boundRow upsertPromptColumns (syncUpsertBinds file)) (S "title")
          = some (some file.content) ∧
      lookupCol (boundRow upsertPromptColumns (syncUpsertBinds file)) (S "text")
          = some file.title ∧
      lookupCol (boundRow upsertPromptColumns (syncUpsertBinds file)) (S "description")
          = some (some file.file_path) ∧
      lookupCol (boundRow upsertPromptColumns (syncUpsertBinds file)) (S "mode")
          = some file.file_hash) ∧
    (S "file_path") ∉ upsertPromptColumns ∧
    (S "file_hash") ∉ upsertPromptColumns ∧
    lookupCol (boundRow upsertPromptColumns
        (syncUpsertBinds (mkPrompt (S "a.md") [] none (S "Hello") none none))) (S "text")
      = some none := by
  refine ⟨fun file => ⟨rfl, rfl, rfl, rfl⟩, by decide, by decide, rfl⟩

/-- C9: an event arriving less than 250ms after the last emission is
dropped with no signal and no timestamp update; one arriving at or after
250ms updates the timestamp and emits exactly once; two events within
250ms of each other (the first arriving after an idle window) produce
exactly one notification; and a dropped event changes nothing, so no
signal is ever re-fired for it later. -/
theorem debounce_leading_edge :
    (∀ last t, t - last < 250 → debounceStep last t = (false, last)) ∧
    (∀ last t, 250 ≤ t - last → debounceStep last t = (true, t)) ∧
    (∀ last t1 t2, 250 ≤ t1 - last → t1 ≤ t2 → t2 - t1 < 250 →
      countEmits last [t1, t2] = 1) ∧
    (∀ last t ts, (debounceStep last t).1 = false →
      emitTrace last (t :: ts) = false :: emitTrace last ts) := by
  refine ⟨?_, ?_, ?_, ?_⟩
  · intro last t h
    unfold debounceStep
    simp [h]
  · intro last t h
    unfold debounceStep
    simp [Nat.not_lt.mpr h]
  · intro last t1 t2 h1 h12 h2
    have s1 : debounceStep last t1 = (true, t1) := by
      unfold debounceStep
      simp [Nat.not_lt.mpr h1]
    have s2 : debounceStep t1 t2 = (false, t1) := by
      unfold debounceStep
      simp [h2]
    have htr : emitTrace last [t1, t2] = [true, false] := by
      show (debounceStep last t1).1 ::
          (debounceStep (debounceStep last t1).2 [t1, t2].tail.head!).1 :: [] = [true, false]
      rw [s1]
      show true :: (debounceStep t1 t2).1 :: [] = [true, false]
      rw [s2]
    unfold countEmits
    rw [htr]
    rfl
  · intro last t ts h
    have hcond : t - last < 250 := by
      by_contra hc
      unfold debounceStep at h
      simp [hc] at h
    have hs : debounceStep last t = (false, last) := by
      unfold debounceStep
      simp [hcond]
    calc emitTrace last (t :: ts)
        = (debounceStep last t).1 :: emitTrace (debounceStep last t).2 ts := rfl
      _ = false :: emitTrace last ts := by rw [hs]

/-- Witness for C9: from the idle initial state, events at 1300ms and
1400ms produce exactly one signal. -/
theorem debounce_leading_edge_witness : countEmits 1000 [1300, 1400] = 1 :=
  debounce_leading_edge.2.2.1 1000 1300 1400 (by decide) (by decide) (by decide)

/-- C8: `delete_prompt` resolves the row's stored file path (falling back
to the id); when the filesystem target is absent the `PathNotFound` is
benign and the cache row is still deleted; a successful filesystem delete
also deletes the cache row; any other error from the vault delete aborts
the command with the vault and the cache unchanged. -/
theorem delete_prompt_absence_tolerant (vault : FS) (c : CacheState) (id : Str) :
    (∀ rp,
      normalize_relative_path (((c.prompts.find? (fun p => p.id = id)).bind rowFilePath).getD id)
          = .ok rp →
      lookupFS vault rp = none →
      delete_prompt vault c id = (.ok (), vault, deletePromptId c id)) ∧
    (∀ fs',
      delete_prompt_file vault (((c.prompts.find? (fun p => p.id = id)).bind rowFilePath).getD id)
          = .ok fs' →
      delete_prompt vault c id = (.ok (), fs', deletePromptId c id)) ∧
    (∀ e,
      delete_prompt_file vault (((c.prompts.find? (fun p => p.id = id)).bind rowFilePath).getD id)
          = .error e →
      (∀ m, e ≠ .PathNotFound m) →
      delete_prompt vault c id = (.error (.Database (S "Failed to delete from vault")), vault, c)) := by
  refine ⟨?_, ?_, ?_⟩
  · intro rp hnorm hlook
    have hdel : delete_prompt_file vault
        (((c.prompts.find? (fun p => p.id = id)).bind rowFilePath).getD id)
        = .error (.PathNotFound rp) := by
      unfold delete_prompt_file
      rw [hnorm]
      simp [hlook]
    unfold delete_prompt
    rw [hdel]
  · intro fs' hdel
    unfold delete_prompt
    rw [hdel]
  · intro e hdel hne
    unfold delete_prompt
    rw [hdel]
    cases e with
    | PathNotFound m => exact absurd rfl (hne m)
    | NotConfigured => rfl
    | NotFound m => rfl
    | IoError m => rfl
    | ParseError m => rfl
    | SerializeError m => rfl
    | InvalidFilename m => rfl
    | InvalidFilePath m => rfl
    | FileAlreadyExists m => rfl
    | InvalidContent m => rfl

/-- Witness for C8: a cached row whose file is absent from the vault is
still pruned from the cache. -/
theorem delete_prompt_absence_tolerant_witness :
    delete_prompt []
        ⟨[{ id := S "a.md", created_at := none, title := none, text := none,
            description := some (S "a.md"), mode := none }], [], []⟩ (S "a.md")
      = (.ok (), [],
          deletePromptId
            ⟨[{ id := S "a.md", created_at := none, title := none, text := none,
                description := some (S "a.md"), mode := none }], [], []⟩ (S "a.md")) :=
  (delete_prompt_absence_tolerant []
      ⟨[{ id := S "a.md", created_at := none, title := none, text := none,
          description := some (S "a.md"), mode := none }], [], []⟩ (S "a.md")).1
    (S "a.md") (by decide) (by decide)

/-- C5 (amended): the normalization rules fire in the stated order (empty
after trim, then `..`, then a leading slash, then an embedded slash, else
the trimmed input with `.md` appended when missing); read and delete
surface every normalization error unchanged; write does so whenever the
content passes the fence guard, which runs first. -/
theorem path_normalization_rules :
    (∀ path, trimL path = [] →
        normalize_relative_path path = .error (.InvalidFilePath (S "empty path"))) ∧
    (∀ path, trimL path ≠ [] → containsSub (trimL path) (S "..") = true →
        normalize_relative_path path = .error (.InvalidFilePath (S "path traversal"))) ∧
    (∀ path, trimL path ≠ [] → containsSub (trimL path) (S "..") = false →
        (strStartsWith (trimL path) (S "/") = true ∨ strStartsWith (trimL path) (S "\\") = true) →
        normalize_relative_path path = .error (.InvalidFilePath (S "absolute path"))) ∧
    (∀ path, trimL path ≠ [] → containsSub (trimL path) (S "..") = false →
        strStartsWith (trimL path) (S "/") = false → strStartsWith (trimL path) (S "\\") = false →
        ('/' ∈ trimL path ∨ '\\' ∈ trimL path) →
        normalize_relative_path path = .error (.InvalidFilePath (S "subfolders are not supported"))) ∧
    (∀ path, trimL path ≠ [] → containsSub (trimL path) (S "..") = false →
        strStartsWith (trimL path) (S "/") = false → strStartsWith (trimL path) (S "\\") = false →
        '/' ∉ trimL path → '\\' ∉ trimL path →
        normalize_relative_path path
          = .ok (if strEndsWith (trimL path) (S ".md") then trimL path else trimL path ++ S ".md")) ∧
    (∀ vault id st e, normalize_relative_path id = .error e →
        find_prompt_by_id (some vault) id st = .error e) ∧
    (∀ vault id e, normalize_relative_path id = .error e →
        delete_prompt_file vault id = .error e) ∧
    (∀ fs now st p e, containsSub p.content (S "```") = false →
        containsSub p.content (S "~~~") = false →
        normalize_relative_path p.file_path = .error e →
        write_prompt_file fs now st p = .error e) := by
  refine ⟨?_, ?_, ?_, ?_, ?_, ?_, ?_, ?_⟩
  · intro path h
    unfold normalize_relative_path
    simp [h]
  · intro path h0 h1
    unfold normalize_relative_path
    simp [h0, h1]
  · intro path h0 h1 h2
    unfold normalize_relative_path
    rcases h2 with h2 | h2 <;> simp [h0, h1, h2]
  · intro path h0 h1 h2 h3 h4
    unfold normalize_relative_path
    rcases h4 with h4 | h4 <;> simp [h0, h1, h2, h3, h4]
  · intro path h0 h1 h2 h3 h4 h5
    unfold normalize_relative_path
    simp [h0, h1, h2, h3, h4, h5]
    split <;> rfl
  · intro vault id st e h
    unfold find_prompt_by_id
    rw [h]
  · intro vault id e h
    unfold delete_prompt_file
    rw [h]
  · intro fs now st p e h1 h2 h
    unfold write_prompt_file
    simp [h1, h2, h]

/-- Witness for C5 at concrete inputs for each rule and operation. -/
theorem path_normalization_rules_witness :
    normalize_relative_path (S "  ") = .error (.InvalidFilePath (S "empty path")) ∧
    normalize_relative_path (S "../x") = .error (.InvalidFilePath (S "path traversal")) ∧
    normalize_relative_path (S "/x") = .error (.InvalidFilePath (S "absolute path")) ∧
    normalize_relative_path (S "a/b") = .error (.InvalidFilePath (S "subfolders are not supported")) ∧
    normalize_relative_path (S " a ") = .ok (if strEndsWith (trimL (S " a ")) (S ".md") then trimL (S " a ") else trimL (S " a ") ++ S ".md") ∧
    find_prompt_by_id (some []) (S "a/b") defaultSettings
      = .error (.InvalidFilePath (S "subfolders are not supported")) ∧
    delete_prompt_file [] (S "a/b") = .error (.InvalidFilePath (S "subfolders are not supported")) ∧
    write_prompt_file [] (S "T") defaultSettings (mkPrompt (S "a/b") [] none (S "x") none none)
      = .error (.InvalidFilePath (S "subfolders are not supported")) :=
  ⟨path_normalization_rules.1 (S "  ") (by decide),
   path_normalization_rules.2.1 (S "../x") (by decide) (by decide),
   path_normalization_rules.2.2.1 (S "/x") (by decide) (by decide) (Or.inl (by decide)),
   path_normalization_rules.2.2.2.1 (S "a/b") (by decide) (by decide) (by decide) (by decide)
     (Or.inl (by decide)),
   path_normalization_rules.2.2.2.2.1 (S " a ") (by decide) (by decide) (by decide) (by decide)
     (by decide) (by decide),
   path_normalization_rules.2.2.2.2.2.1 [] (S "a/b") defaultSettings _ (by decide),
   path_normalization_rules.2.2.2.2.2.2.1 [] (S "a/b") _ (by decide),
   path_normalization_rules.2.2.2.2.2.2.2 [] (S "T") defaultSettings
     (mkPrompt (S "a/b") [] none (S "x") none none) _ (by decide) (by decide) (by decide)⟩

/-- The prune loop's counter adds exactly the number of snapshot ids not
found in this pass. -/
theorem pruneGo_count (found ids : List Str) (c : CacheState) (n : Nat) :
    (pruneGo found ids c n).2 = n + (ids.filter (fun id => id ∉ found)).length := by
  induction ids generalizing c n with
  | nil => simp [pruneGo]
  | cons id ids ih =>
    by_cases h : id ∈ found
    · simp [pruneGo, h, ih]
    · simp only [pruneGo, if_neg h, ih, List.filter]
      simp [h]
      omega

/-- Rows surviving the prune loop come from the input cache, and any
survivor whose id was in the walked snapshot is a found id. -/
theorem pruneGo_mem (found ids : List Str) (c : CacheState) (n : Nat) (p : PromptRowM)
    (hp : p ∈ (pruneGo found ids c n).1.prompts) :
    p ∈ c.prompts ∧ (p.id ∈ ids → p.id ∈ found) := by
  induction ids generalizing c n with
  | nil =>
    refine ⟨by simpa [pruneGo] using hp, ?_⟩
    intro h
    simp at h
  | cons id ids ih =>
    by_cases h : id ∈ found
    · rw [pruneGo, if_pos h] at hp
      obtain ⟨h1, h2⟩ := ih _ _ hp
      refine ⟨h1, ?_⟩
      intro hmem
      rcases List.mem_cons.mp hmem with heq | hmem'
      · rw [heq]; exact h
      · exact h2 hmem'
    · rw [pruneGo, if_neg h] at hp
      obtain ⟨h1, h2⟩ := ih _ _ hp
      have h1' : p ∈ c.prompts ∧ ¬(p.id = id) := by
        have := List.mem_filter.mp h1
        refine ⟨this.1, ?_⟩
        simpa using this.2
      refine ⟨h1'.1, ?_⟩
      intro hmem
      rcases List.mem_cons.mp hmem with heq | hmem'
      · exact absurd heq h1'.2
      · exact h2 hmem'

/-- The tag-replacement loop never touches the `prompts` table. -/
theorem tagStep_prompts (pid : Str) (names : List Str) (st : CacheState × Nat) :
    (names.foldl (tagStep pid) st).1.prompts = st.1.prompts := by
  induction names generalizing st with
  | nil => rfl
  | cons name names ih => rw [List.foldl_cons, ih]; rfl

/-- `replaceTagsFor` never touches the `prompts` table. -/
theorem replaceTagsFor_prompts (c : CacheState) (ctr : Nat) (pid : Str) (names : List Str) :
    (replaceTagsFor c ctr pid names).1.prompts = c.prompts := by
  unfold replaceTagsFor
  rw [tagStep_prompts]

/-- An upserted table's ids are the old ids plus the new row's id. -/
theorem upsertPromptRow_mem (ps : List PromptRowM) (r p : PromptRowM)
    (hp : p ∈ upsertPromptRow ps r) : p.id ∈ ps.map PromptRowM.id ∨ p.id = r.id := by
  unfold upsertPromptRow at hp
  by_cases h : ps.any (fun q => q.id = r.id)
  · rw [if_pos h] at hp
    obtain ⟨q, hq, heq⟩ := List.mem_map.mp hp
    by_cases hid : q.id = r.id
    · rw [if_pos hid] at heq
      right
      rw [← heq]
      exact hid
    · rw [if_neg hid] at heq
      left
      exact List.mem_map.mpr ⟨q, hq, by rw [heq]⟩
  · rw [if_neg h] at hp
    rcases List.mem_append.mp hp with hmem | hmem
    · exact Or.inl (List.mem_map.mpr ⟨p, hmem, rfl⟩)
    · right
      rw [List.mem_singleton.mp hmem]

/-- Every row surviving the upsert phase has its id among the input cache
ids or the found ids. -/
theorem syncUpsertPhase_mem (files : List PromptFile) (c : CacheState) (ctr : Nat)
    (p : PromptRowM) (hp : p ∈ (syncUpsertPhase files c ctr).1.prompts) :
    p.id ∈ c.prompts.map PromptRowM.id ∨ p.id ∈ foundIds files := by
  induction files generalizing c ctr with
  | nil =>
    left
    exact List.mem_map.mpr ⟨p, by simpa [syncUpsertPhase] using hp, rfl⟩
  | cons f fs ih =>
    have hp' : p ∈ (syncUpsertPhase fs (syncFileStep (c, ctr) f).1
        (syncFileStep (c, ctr) f).2).1.prompts := by
      simpa [syncUpsertPhase, List.foldl_cons] using hp
    rcases ih _ _ hp' with hmem | hmem
    · have hstep : (syncFileStep (c, ctr) f).1.prompts
          = upsertPromptRow c.prompts (rowOfBinds f) := by
        unfold syncFileStep
        rw [replaceTagsFor_prompts]
      rw [hstep] at hmem
      obtain ⟨q, hq, heq⟩ := List.mem_map.mp hmem
      rcases upsertPromptRow_mem c.prompts (rowOfBinds f) q hq with h0 | h0
      · left
        rw [← heq]
        exact h0
      · right
        rw [← heq, h0]
        exact List.mem_cons_self _ _
    · right
      exact List.mem_cons_of_mem _ hmem

/-- A `.md` entry of the vault always parses in the model, so the scan
returns one entry per `.md` file. -/
theorem lookupFS_isSome_of_mem (fs : FS) (p : Str) (c : Str) (h : (p, c) ∈ fs) :
    (lookupFS fs p).isSome := by
  induction fs with
  | nil => cases h
  | cons e fs ih =>
    by_cases hq : e.1 = p
    · cases e
      simp only [lookupFS]
      rw [if_pos hq]
      rfl
    · cases e with
      | mk q d =>
        rcases List.mem_cons.mp h with heq | hmem
        · exact absurd (congrArg Prod.fst heq.symm) hq
        · simp only [lookupFS]
          rw [if_neg hq]
          exact ih hmem

/-- `filterMap` over a function that always succeeds keeps the length. -/
theorem length_filterMap_isSome {α β : Type} (f : α → Option β) (l : List α)
    (h : ∀ x ∈ l, (f x).isSome) : (l.filterMap f).length = l.length := by
  induction l with
  | nil => rfl
  | cons x xs ih =>
    have hx := h x (List.mem_cons_self x xs)
    obtain ⟨y, hy⟩ := Option.isSome_iff_exists.mp hx
    rw [List.filterMap_cons, hy]
    simp only [List.length_cons]
    rw [ih (fun z hz => h z (List.mem_cons_of_mem x hz))]

/-- The scan returns exactly one entry per `.md` file of the vault. -/
theorem scan_vault_length (vault : FS) (st : FrontmatterSettings) (files : List PromptFile)
    (h : scan_vault (some vault) st = .ok files) :
    files.length = (vault.filter (fun e => hasMdExt e.1)).length := by
  unfold scan_vault at h
  have hfiles : files = (vault.filter (fun e => hasMdExt e.1)).filterMap
      (fun e => (read_prompt_file vault e.1 st).toOption) := by
    cases h
    rfl
  rw [hfiles]
  apply length_filterMap_isSome
  intro e he
  have hmem : e ∈ vault := (List.mem_filter.mp he).1
  cases e with
  | mk p c =>
    have := lookupFS_isSome_of_mem vault p c hmem
    unfold read_prompt_file
    obtain ⟨v, hv⟩ := Option.isSome_iff_exists.mp this
    rw [hv]
    rfl

/-- C3: on a successful pass, `found` is the number of `.md` files scanned,
`updated` always equals `found` (unconditional upsert, no hash skip), and
`deleted` counts exactly the cached ids at prune time that are not in the
scanned set, each of which is gone from the cache the pass commits. -/
theorem sync_vault_stats (vault : FS) (st : FrontmatterSettings) (files : List PromptFile)
    (c : CacheState) (ctr : Nat)
    (hscan : scan_vault (some vault) st = .ok files) :
    (sync_vault files c ctr).2.1.found = files.length ∧
    files.length = (vault.filter (fun e => hasMdExt e.1)).length ∧
    (sync_vault files c ctr).2.1.updated = (sync_vault files c ctr).2.1.found ∧
    (sync_vault files c ctr).2.1.deleted
      = (((syncUpsertPhase files c ctr).1.prompts.map PromptRowM.id).filter
          (fun id => id ∉ foundIds files)).length ∧
    (∀ id0 ∈ (syncUpsertPhase files c ctr).1.prompts.map PromptRowM.id,
      id0 ∉ foundIds files →
      id0 ∉ (sync_vault files c ctr).1.prompts.map PromptRowM.id) := by
  refine ⟨rfl, scan_vault_length vault st files hscan, rfl, ?_, ?_⟩
  · show (syncPrunePhase (foundIds files) (syncUpsertPhase files c ctr).1).2 = _
    unfold syncPrunePhase
    rw [pruneGo_count, Nat.zero_add]
  · intro id0 hid0 hnotfound hmem
    obtain ⟨p, hp, heq⟩ := List.mem_map.mp hmem
    have hp' : p ∈ (pruneGo (foundIds files)
        ((syncUpsertPhase files c ctr).1.prompts.map PromptRowM.id)
        (syncUpsertPhase files c ctr).1 0).1.prompts := hp
    obtain ⟨_, himp⟩ := pruneGo_mem _ _ _ _ _ hp'
    exact hnotfound (heq ▸ himp (heq ▸ hid0))

/-- Witness for C3 on a concrete one-file vault. -/
theorem sync_vault_stats_witness :
    (sync_vault
        [{ id := S "a.md", file_path := S "a.md", tags := [], created := none, content := [],
           file_hash := some (S "sha256:x"), title := none, description := none }]
        ⟨[], [], []⟩ 0).2.1.found = 1 :=
  (sync_vault_stats [(S "a.md", S "x")] defaultSettings
    [{ id := S "a.md", file_path := S "a.md", tags := [], created := none, content := [],
       file_hash := some (S "sha256:x"), title := none, description := none }]
    ⟨[], [], []⟩ 0 (by decide)).1

/-- C4: running the pass twice with no filesystem change gives
`deleted = 0` the second time and the same `found` both times. -/
theorem sync_vault_idempotent (vault : FS) (st : FrontmatterSettings)
    (files : List PromptFile) (c : CacheState) (ctr : Nat)
    (_hscan : scan_vault (some vault) st = .ok files) :
    (sync_vault files (sync_vault files c ctr).1 (sync_vault files c ctr).2.2).2.1.deleted = 0 ∧
    (sync_vault files (sync_vault files c ctr).1 (sync_vault files c ctr).2.2).2.1.found
      = (sync_vault files c ctr).2.1.found := by
  refine ⟨?_, rfl⟩
  have hsub : ∀ id0 ∈ (syncUpsertPhase files (sync_vault files c ctr).1
      (sync_vault files c ctr).2.2).1.prompts.map PromptRowM.id, id0 ∈ foundIds files := by
    intro id0 hid0
    obtain ⟨p, hp, heq⟩ := List.mem_map.mp hid0
    rcases syncUpsertPhase_mem _ _ _ _ hp with hmem | hmem
    · obtain ⟨q, hq, heq'⟩ := List.mem_map.mp hmem
      have hq' : q ∈ (pruneGo (foundIds files)
          ((syncUpsertPhase files c ctr).1.prompts.map PromptRowM.id)
          (syncUpsertPhase files c ctr).1 0).1.prompts := hq
      obtain ⟨hq1, hq2⟩ := pruneGo_mem _ _ _ _ _ hq'
      rw [← heq, ← heq']
      exact hq2 (List.mem_map.mpr ⟨q, hq1, rfl⟩)
    · rw [← heq]; exact hmem
  show (syncPrunePhase (foundIds files) _).2 = 0
  unfold syncPrunePhase
  rw [pruneGo_count]
  simp only [Nat.zero_add]
  rw [List.length_eq_zero]
  rw [List.filter_eq_nil_iff]
  intro a ha
  simp [hsub a ha]

/-- Witness for C4 on a concrete one-file vault. -/
theorem sync_vault_idempotent_witness :
    (sync_vault
        [{ id := S "a.md", file_path := S "a.md", tags := [], created := none, content := [],
           file_hash := some (S "sha256:x"), title := none, description := none }]
        (sync_vault
          [{ id := S "a.md", file_path := S "a.md", tags := [], created := none, content := [],
             file_hash := some (S "sha256:x"), title := none, description := none }]
          ⟨[], [], []⟩ 0).1
        (sync_vault
          [{ id := S "a.md", file_path := S "a.md", tags := [], created := none, content := [],
             file_hash := some (S "sha256:x"), title := none, description := none }]
          ⟨[], [], []⟩ 0).2.2).2.1.deleted = 0 :=
  (sync_vault_idempotent [(S "a.md", S "x")] defaultSettings
    [{ id := S "a.md", file_path := S "a.md", tags := [], created := none, content := [],
       file_hash := some (S "sha256:x"), title := none, description := none }]
    ⟨[], [], []⟩ 0 (by decide)).1

/-- An opening line enters a block with the fence it names, regardless of
the previous state. -/
theorem extractGo_openStep (o : Str) (ls : List Str) (inB : Bool) (f0 : Str)
    (ho : opensPrompt o = true) :
    extractGo (o :: ls) inB f0 = extractGo ls true (fenceOf (trimStartL o)) := by
  rw [extractGo]
  simp [ho]

/-- Lines that open nothing are skipped outside a block. -/
theorem extractGo_skip (pre tail : List Str) (f : Str)
    (h : ∀ l ∈ pre, opensPrompt l = false) :
    extractGo (pre ++ tail) false f = extractGo tail false f := by
  induction pre with
  | nil => rfl
  | cons l pre ih =>
    have hl := h l (List.mem_cons_self l pre)
    show extractGo (l :: (pre ++ tail)) false f = _
    rw [extractGo, hl]
    simp only [Bool.false_eq_true, if_false, Bool.false_and]
    exact ih (fun x hx => h x (List.mem_cons_of_mem l hx))

/-- Inside a block, lines are collected until the first close, for any
suffix after that close. -/
theorem extractGo_collect (mid : List Str) (f cl : Str) (post : List Str)
    (hmid : ∀ l ∈ mid, opensPrompt l = false ∧ closesWith l f = false)
    (hcl : closesWith cl f = true) (hclo : opensPrompt cl = false) :
    extractGo (mid ++ cl :: post) true f = mid := by
  induction mid with
  | nil =>
    show extractGo (cl :: post) true f = []
    rw [extractGo, hclo]
    simp [hcl]
  | cons l mid ih =>
    obtain ⟨h1, h2⟩ := hmid l (List.mem_cons_self l mid)
    show extractGo (l :: (mid ++ cl :: post)) true f = l :: mid
    rw [extractGo, h1]
    simp only [Bool.false_eq_true, if_false, h2, Bool.and_false, if_true]
    rw [ih (fun x hx => hmid x (List.mem_cons_of_mem l hx))]

/-- Inside a block with no re-opening line, the loop collects up to the
first close (or to the end when none closes). -/
theorem extractGo_inblock (rest : List Str) (f : Str)
    (h : ∀ l ∈ rest, opensPrompt l = false) :
    extractGo rest true f
      = (match findClose f rest with
         | none => rest
         | some j => rest.take j) := by
  induction rest with
  | nil => rfl
  | cons l rest ih =>
    have hl := h l (List.mem_cons_self l rest)
    by_cases hc : closesWith l f = true
    · rw [extractGo, hl]
      simp only [Bool.false_eq_true, if_false]
      rw [findClose, if_pos hc]
      simp [hc]
    · have hc' : closesWith l f = false := by
        cases hcv : closesWith l f
        · rfl
        · exact absurd hcv hc
      rw [extractGo, hl]
      simp only [Bool.false_eq_true, if_false, hc', Bool.and_false, if_true]
      rw [findClose, if_neg hc]
      rw [ih (fun x hx => h x (List.mem_cons_of_mem l hx))]
      cases hfc : findClose f rest <;> simp [hfc]

/-- `findOpen` returning `none` means no line opens a prompt fence. -/
theorem findOpen_none_iff (ls : List Str) :
    findOpen ls = none ↔ ∀ l ∈ ls, opensPrompt l = false := by
  induction ls with
  | nil => simp [findOpen]
  | cons l ls ih =>
    constructor
    · intro h x hx
      rw [findOpen] at h
      by_cases ho : opensPrompt l = true
      · rw [if_pos ho] at h
        cases h
      · have ho' : opensPrompt l = false := by
          cases hv : opensPrompt l
          · rfl
          · exact absurd hv ho
        rw [ho', if_neg (by simp)] at h
        have hnone : findOpen ls = none := by
          cases hfo : findOpen ls
          · rfl
          · rw [hfo] at h; cases h
        rcases List.mem_cons.mp hx with heq | hmem
        · rw [heq]; exact ho'
        · exact (ih.mp hnone) x hmem
    · intro h
      rw [findOpen, h l (List.mem_cons_self l ls)]
      simp only [Bool.false_eq_true, if_false]
      rw [ih.mpr (fun x hx => h x (List.mem_cons_of_mem l hx))]
      rfl

/-- `findClose` returning `none` means no line closes the fence. -/
theorem findClose_none_iff (f : Str) (ls : List Str) :
    findClose f ls = none ↔ ∀ l ∈ ls, closesWith l f = false := by
  induction ls with
  | nil => simp [findClose]
  | cons l ls ih =>
    constructor
    · intro h x hx
      rw [findClose] at h
      by_cases hc : closesWith l f = true
      · rw [if_pos hc] at h; cases h
      · have hc' : closesWith l f = false := by
          cases hv : closesWith l f
          · rfl
          · exact absurd hv hc
        rw [if_neg hc] at h
        have hnone : findClose f ls = none := by
          cases hfc : findClose f ls
          · rfl
          · rw [hfc] at h; cases h
        rcases List.mem_cons.mp hx with heq | hmem
        · rw [heq]; exact hc'
        · exact (ih.mp hnone) x hmem
    · intro h
      rw [findClose, if_neg (by rw [h l (List.mem_cons_self l ls)]; simp)]
      rw [ih.mpr (fun x hx => h x (List.mem_cons_of_mem l hx))]
      rfl

/-- `findOpen` finds the first opening line: the decomposition of the
line list it implies. -/
theorem findOpen_decomp (ls : List Str) (i : Nat) (f : Str)
    (h : findOpen ls = some (i, f)) :
    ∃ o, ls.get? i = some o ∧ opensPrompt o = true ∧ f = fenceOf (trimStartL o) ∧
      ∀ l ∈ ls.take i, opensPrompt l = false := by
  induction ls generalizing i with
  | nil => cases h
  | cons l ls ih =>
    rw [findOpen] at h
    by_cases ho : opensPrompt l = true
    · rw [if_pos ho] at h
      cases h
      exact ⟨l, rfl, ho, rfl, by simp⟩
    · have ho' : opensPrompt l = false := by
        cases hv : opensPrompt l
        · rfl
        · exact absurd hv ho
      rw [ho', if_neg (by simp)] at h
      cases hfo : findOpen ls with
      | none => rw [hfo] at h; cases h
      | some p =>
        rw [hfo] at h
        cases h
        obtain ⟨o, hget, hopen, hf, hpre⟩ := ih p.1 hfo
        refine ⟨o, hget, hopen, hf, ?_⟩
        intro x hx
        rw [List.take_succ_cons] at hx
        rcases List.mem_cons.mp hx with heq | hmem
        · rw [heq]; exact ho'
        · exact hpre x hmem

/-- `findClose` finds the first closing line: the decomposition of the
line list it implies. -/
theorem findClose_decomp (f : Str) (ls : List Str) (j : Nat)
    (h : findClose f ls = some j) :
    ∃ cl, ls.get? j = some cl ∧ closesWith cl f = true ∧
      ∀ l ∈ ls.take j, closesWith l f = false := by
  induction ls generalizing j with
  | nil => cases h
  | cons l ls ih =>
    rw [findClose] at h
    by_cases hc : closesWith l f = true
    · rw [if_pos hc] at h
      cases h
      exact ⟨l, rfl, hc, by simp⟩
    · rw [if_neg hc] at h
      have hc' : closesWith l f = false := by
        cases hv : closesWith l f
        · rfl
        · exact absurd hv hc
      cases hfc : findClose f ls with
      | none => rw [hfc] at h; cases h
      | some j' =>
        rw [hfc] at h
        cases h
        obtain ⟨cl, hget, hcl, hpre⟩ := ih j' hfc
        refine ⟨cl, hget, hcl, ?_⟩
        intro x hx
        rw [List.take_succ_cons] at hx
        rcases List.mem_cons.mp hx with heq | hmem
        · rw [heq]; exact hc'
        · exact hpre x hmem

/-- A list splits at any valid index. -/
theorem get?_split {α : Type} (ls : List α) (i : Nat) (o : α) (h : ls.get? i = some o) :
    ls = ls.take i ++ o :: ls.drop (i + 1) := by
  induction ls generalizing i with
  | nil => cases h
  | cons l ls ih =>
    cases i with
    | zero =>
      cases h
      rfl
    | succ i =>
      have := ih i h
      calc l :: ls = l :: (ls.take i ++ o :: ls.drop (i + 1)) := by rw [← this]
        _ = (l :: ls).take (i + 1) ++ o :: (l :: ls).drop (i + 2) := by
              rw [List.take_succ_cons, List.drop_succ_cons]
              rfl

/-- C7 (amended): with no opening fence the extracted content is empty;
when the first opening fence exists and no later line is itself a
`\x60\x60\x60prompt`/`~~~prompt` opener, the content is exactly the lines
strictly between the opener and the first subsequent line starting with
the remembered fence (to the end when none), joined verbatim.  (A later
opener line instead re-opens the block and is dropped; see the
counterexample.) -/
theorem extract_fence_scan (md : Str) :
    (findOpen (linesOf md) = none → extract_code_block_content md = []) ∧
    (∀ i f, findOpen (linesOf md) = some (i, f) →
      (∀ l ∈ (linesOf md).drop (i + 1), opensPrompt l = false) →
      extract_code_block_content md = claimedExtract md) := by
  constructor
  · intro h
    unfold extract_code_block_content
    have : extractGo (linesOf md) false [] = [] := by
      have := extractGo_skip (linesOf md) [] [] ((findOpen_none_iff _).mp h)
      simpa using this
    rw [this]
    rfl
  · intro i f hopen hafter
    obtain ⟨o, hget, ho, hf, hpre⟩ := findOpen_decomp _ _ _ hopen
    have hsplit := get?_split _ _ _ hget
    unfold extract_code_block_content claimedExtract
    rw [hopen]
    have hgo : extractGo (linesOf md) false [] = extractGo ((linesOf md).drop (i + 1)) true f := by
      conv_lhs => rw [hsplit]
      rw [extractGo_skip _ _ _ hpre, extractGo_openStep _ _ _ _ ho, ← hf]
    rw [hgo, extractGo_inblock _ _ hafter]
    cases hfc : findClose f ((linesOf md).drop (i + 1)) <;> simp [hfc]

/-- C7 counterexample: a second opener line starts with the remembered
fence, but the code re-opens on it (dropping the line) instead of closing,
so the content is not the segment strictly between the opener and the
first fence-starting line. -/
theorem extract_reopens_on_second_opener :
    extract_code_block_content (S "```prompt\na\n```prompt\nb\n```") = S "a\nb" ∧
    claimedExtract (S "```prompt\na\n```prompt\nb\n```") = S "a" ∧
    extract_code_block_content (S "```prompt\na\n```prompt\nb\n```")
      ≠ claimedExtract (S "```prompt\na\n```prompt\nb\n```") := by
  refine ⟨by decide, by decide, by decide⟩

/-- Witness for C7: no opening fence gives empty content, and a plain
closed block extracts its interior. -/
theorem extract_fence_scan_witness :
    extract_code_block_content (S "hello\nworld") = [] ∧
    extract_code_block_content (S "```prompt\na\n```\ntail") =
      claimedExtract (S "```prompt\na\n```\ntail") :=
  ⟨(extract_fence_scan (S "hello\nworld")).1 (by decide),
   (extract_fence_scan (S "```prompt\na\n```\ntail")).2 0 (S "```") (by decide) (by decide)⟩

/-- C10 (amended): for a body whose first opening fence has no later line
starting with the same fence string and no later opener line, parsing
returns every line after the opening fence to the end of the body, and
rendering appends a brand-new fenced block after the end-trimmed body,
leaving the original unclosed opening fence in place above it. -/
theorem unclosed_fence_behavior (body newContent : Str) (i : Nat) (f : Str)
    (hopen : findOpen (linesOf body) = some (i, f))
    (hafter : ∀ l ∈ (linesOf body).drop (i + 1),
      opensPrompt l = false ∧ closesWith l f = false) :
    extract_code_block_content body = intercalateNL ((linesOf body).drop (i + 1)) ∧
    update_prompt_block body newContent
      = (if trimEndL body = [] then [] else trimEndL body ++ S "\n\n")
        ++ S "```prompt\n" ++ newContent ++ S "\n```\n" := by
  have hnc : findClose f ((linesOf body).drop (i + 1)) = none :=
    (findClose_none_iff _ _).mpr (fun l hl => (hafter l hl).2)
  constructor
  · obtain ⟨o, hget, ho, hf, hpre⟩ := findOpen_decomp _ _ _ hopen
    have hsplit := get?_split _ _ _ hget
    unfold extract_code_block_content
    have hgo : extractGo (linesOf body) false []
        = extractGo ((linesOf body).drop (i + 1)) true f := by
      conv_lhs => rw [hsplit]
      rw [extractGo_skip _ _ _ hpre, extractGo_openStep _ _ _ _ ho, ← hf]
    rw [hgo, extractGo_inblock _ _ (fun l hl => (hafter l hl).1), hnc]
  · unfold update_prompt_block
    rw [hopen]
    simp only [hnc]
    rfl

/-- Witness for C10 on a concrete unclosed body. -/
theorem unclosed_fence_behavior_witness :
    extract_code_block_content (S "```prompt\na\nb")
        = intercalateNL ((linesOf (S "```prompt\na\nb")).drop 1) ∧
    update_prompt_block (S "```prompt\na\nb") (S "n")
        = (if trimEndL (S "```prompt\na\nb") = [] then []
           else trimEndL (S "```prompt\na\nb") ++ S "\n\n")
          ++ S "```prompt\n" ++ S "n" ++ S "\n```\n" :=
  unclosed_fence_behavior (S "```prompt\na\nb") (S "n") 0 (S "```") (by decide) (by decide)

/-- C10 counterexample: an unclosed backtick opener followed by a
`~~~prompt` line — no later line starts with the backtick fence, yet the
parsed content is not every line after the opener: the `~~~prompt` line
re-opens the block and is dropped. -/
theorem mixed_fence_reopens :
    findOpen (linesOf (S "```prompt\na\n~~~prompt\nb")) = some (0, S "```") ∧
    (∀ l ∈ (linesOf (S "```prompt\na\n~~~prompt\nb")).drop 1,
      closesWith l (S "```") = false) ∧
    extract_code_block_content (S "```prompt\na\n~~~prompt\nb") = S "a\nb" ∧
    extract_code_block_content (S "```prompt\na\n~~~prompt\nb")
      ≠ intercalateNL ((linesOf (S "```prompt\na\n~~~prompt\nb")).drop 1) := by
  refine ⟨by decide, by decide, by decide, by decide⟩

/-! ### String and line lemmas for the round-trip claim -/

/-- Splitting never yields an empty list of segments. -/
theorem splitOnNL_ne_nil (s : Str) : splitOnNL s ≠ [] := by
  cases s with
  | nil => simp [splitOnNL]
  | cons c cs =>
    rw [splitOnNL]
    by_cases h : c = '\n'
    · simp [h]
    · rw [if_neg h]
      cases hs : splitOnNL cs <;> simp

/-- `intercalateNL` of a single line. -/
theorem intercalateNL_singleton (x : Str) : intercalateNL [x] = x := by
  simp [intercalateNL, List.intercalate]

/-- `intercalateNL` over a cons with a non-empty tail. -/
theorem intercalateNL_cons (x : Str) (L : List Str) (h : L ≠ []) :
    intercalateNL (x :: L) = x ++ '\n' :: intercalateNL L := by
  cases L with
  | nil => exact absurd rfl h
  | cons y t =>
    show List.intercalate (S "\n") (x :: y :: t) = _
    simp only [List.intercalate, List.intersperse_cons_cons, List.flatten_cons]
    show x ++ (S "\n" ++ (List.intersperse (S "\n") (y :: t)).flatten) = _
    rfl

/-- Joining the segments restores the string. -/
theorem intercalateNL_splitOnNL (s : Str) : intercalateNL (splitOnNL s) = s := by
  induction s with
  | nil => rfl
  | cons c cs ih =>
    rw [splitOnNL]
    by_cases h : c = '\n'
    · rw [if_pos h, intercalateNL_cons _ _ (splitOnNL_ne_nil cs), ih, h]
      rfl
    · rw [if_neg h]
      cases hs : splitOnNL cs with
      | nil => exact absurd hs (splitOnNL_ne_nil cs)
      | cons hseg t =>
        cases t with
        | nil =>
          have h2 : hseg = cs := by
            have := ih
            rw [hs, intercalateNL_singleton] at this
            exact this
          show intercalateNL [c :: hseg] = c :: cs
          rw [intercalateNL_singleton, h2]
        | cons y t' =>
          rw [intercalateNL_cons _ _ (by simp)]
          have := ih
          rw [hs, intercalateNL_cons _ _ (by simp)] at this
          show c :: (hseg ++ '\n' :: intercalateNL (y :: t')) = c :: cs
          rw [this]

/-- Splitting distributes over an explicit newline. -/
theorem splitOnNL_append_cons (a b : Str) :
    splitOnNL (a ++ '\n' :: b) = splitOnNL a ++ splitOnNL b := by
  induction a with
  | nil => rfl
  | cons c cs ih =>
    show splitOnNL (c :: (cs ++ '\n' :: b)) = _
    rw [splitOnNL]
    by_cases h : c = '\n'
    · rw [if_pos h, ih]
      rw [show splitOnNL (c :: cs) = [] :: splitOnNL cs by rw [splitOnNL, if_pos h]]
      rfl
    · rw [if_neg h, ih]
      cases hs : splitOnNL cs with
      | nil => exact absurd hs (splitOnNL_ne_nil cs)
      | cons hseg t =>
        rw [show splitOnNL (c :: cs) = (c :: hseg) :: t by
          rw [splitOnNL, if_neg h, hs]]
        rfl

/-- No segment contains a newline. -/
theorem mem_splitOnNL_noNL (s : Str) : ∀ l ∈ splitOnNL s, '\n' ∉ l := by
  induction s with
  | nil =>
    intro l hl
    simp [splitOnNL] at hl
    simp [hl]
  | cons c cs ih =>
    intro l hl
    rw [splitOnNL] at hl
    by_cases h : c = '\n'
    · rw [if_pos h] at hl
      rcases List.mem_cons.mp hl with heq | hmem
      · simp [heq]
      · exact ih l hmem
    · rw [if_neg h] at hl
      cases hs : splitOnNL cs with
      | nil => exact absurd hs (splitOnNL_ne_nil cs)
      | cons hseg t =>
        rw [hs] at hl
        rcases List.mem_cons.mp hl with heq | hmem
        · rw [heq]
          intro hc
          rcases List.mem_cons.mp hc with h1 | h2
          · exact h h1.symm
          · exact ih hseg (hs ▸ List.mem_cons_self hseg t) h2
        · exact ih l (hs ▸ List.mem_cons_of_mem hseg hmem)

/-- A newline-free string is a single segment. -/
theorem splitOnNL_of_noNL (s : Str) (h : '\n' ∉ s) : splitOnNL s = [s] := by
  induction s with
  | nil => rfl
  | cons c cs ih =>
    have hc : ¬(c = '\n') := fun hcc => h (hcc ▸ List.mem_cons_self c cs)
    rw [splitOnNL, if_neg hc, ih (fun hm => h (List.mem_cons_of_mem c hm))]

/-- A line without a carriage return is untouched by `stripCR`. -/
theorem stripCR_eq_self (l : Str) (h : '\r' ∉ l) : stripCR l = l := by
  unfold stripCR
  rw [if_neg]
  intro hsuf
  have : (S "\r") <:+ l := by
    have := List.isSuffixOf_iff_suffix.mp hsuf
    exact this
  obtain ⟨t, ht⟩ := this
  exact h (by rw [← ht]; simp [S])

/-- `linesOfAux` distributes over an append with a non-empty tail. -/
theorem linesOfAux_append (xs ys : List Str) (h : ys ≠ []) :
    linesOfAux (xs ++ ys) = xs.map stripCR ++ linesOfAux ys := by
  induction xs with
  | nil => rfl
  | cons x xs ih =>
    have hne : xs ++ ys ≠ [] := by
      cases xs <;> simp [h]
    show linesOfAux (x :: (xs ++ ys)) = _
    cases hxy : xs ++ ys with
    | nil => exact absurd hxy hne
    | cons z zs =>
      rw [show linesOfAux (x :: z :: zs) = stripCR x :: linesOfAux (z :: zs) from rfl]
      rw [← hxy, ih]
      rfl

/-- `linesOfAux` on a non-empty carriage-return-free head line. -/
theorem linesOfAux_cons_of (cl : Str) (post : List Str) (h1 : cl ≠ [])
    (h2 : stripCR cl = cl) : linesOfAux (cl :: post) = cl :: linesOfAux post := by
  cases post with
  | nil => simp [linesOfAux, h1]
  | cons p t =>
    rw [show linesOfAux (cl :: p :: t) = stripCR cl :: linesOfAux (p :: t) from rfl, h2]

/-- Splitting a join of newline-free lines restores the lines. -/
theorem splitOnNL_intercalateNL (A : List Str) (hne : A ≠ [])
    (h : ∀ l ∈ A, '\n' ∉ l) : splitOnNL (intercalateNL A) = A := by
  induction A with
  | nil => exact absurd rfl hne
  | cons x t ih =>
    cases t with
    | nil =>
      show splitOnNL (intercalateNL [x]) = [x]
      rw [show intercalateNL [x] = x from by simp [intercalateNL, List.intercalate]]
      exact splitOnNL_of_noNL x (h x (List.mem_cons_self x []))
    | cons y t' =>
      rw [intercalateNL_cons _ _ (by simp), splitOnNL_append_cons,
        splitOnNL_of_noNL x (h x (List.mem_cons_self x _)),
        ih (by simp) (fun l hl => h l (List.mem_cons_of_mem x hl))]
      rfl

/-- Characters of a segment come from the split string. -/
theorem mem_splitOnNL_subset (s : Str) : ∀ l ∈ splitOnNL s, ∀ x ∈ l, x ∈ s := by
  induction s with
  | nil =>
    intro l hl x hx
    simp [splitOnNL] at hl
    rw [hl] at hx
    cases hx
  | cons c cs ih =>
    intro l hl x hx
    rw [splitOnNL] at hl
    by_cases h : c = '\n'
    · rw [if_pos h] at hl
      rcases List.mem_cons.mp hl with heq | hmem
      · rw [heq] at hx; cases hx
      · exact List.mem_cons_of_mem c (ih l hmem x hx)
    · rw [if_neg h] at hl
      cases hs : splitOnNL cs with
      | nil => exact absurd hs (splitOnNL_ne_nil cs)
      | cons hseg t =>
        rw [hs] at hl
        rcases List.mem_cons.mp hl with heq | hmem
        · rw [heq] at hx
          rcases List.mem_cons.mp hx with h1 | h2
          · rw [h1]; exact List.mem_cons_self c cs
          · exact List.mem_cons_of_mem c
              (ih hseg (hs ▸ List.mem_cons_self hseg t) x h2)
        · exact List.mem_cons_of_mem c (ih l (hs ▸ List.mem_cons_of_mem hseg hmem) x hx)

/-- Lines whose `stripCR` is the identity and whose last line is non-empty
are reported verbatim. -/
theorem linesOfAux_eq_self (ls : List Str) (h1 : ∀ l ∈ ls, stripCR l = l)
    (h2 : ls.getLast? ≠ some []) : linesOfAux ls = ls := by
  induction ls with
  | nil => rfl
  | cons l t ih =>
    cases t with
    | nil =>
      have hne : l ≠ [] := fun he => h2 (by simp [he])
      simp [linesOfAux, hne]
    | cons y t' =>
      rw [show linesOfAux (l :: y :: t') = stripCR l :: linesOfAux (y :: t') from rfl]
      rw [h1 l (List.mem_cons_self l _),
        ih (fun x hx => h1 x (List.mem_cons_of_mem l hx))
          (by simpa [List.getLast?_cons_cons] using h2)]

/-- A string that is non-empty and does not end in a newline has a
non-empty final segment. -/
theorem getLast?_splitOnNL (c : Str) (h1 : c ≠ []) (h2 : c.getLast? ≠ some '\n') :
    (splitOnNL c).getLast? ≠ some [] := by
  induction c with
  | nil => exact absurd rfl h1
  | cons a cs ih =>
    cases cs with
    | nil =>
      have ha : ¬(a = '\n') := fun he => h2 (by simp [he])
      rw [splitOnNL, if_neg ha]
      simp [splitOnNL]
    | cons b cs' =>
      have h2' : (b :: cs').getLast? ≠ some '\n' := by
        simpa [List.getLast?_cons_cons] using h2
      have hih := ih (by simp) h2'
      by_cases ha : a = '\n'
      · rw [splitOnNL, if_pos ha]
        cases hsp : splitOnNL (b :: cs') with
        | nil => exact absurd hsp (splitOnNL_ne_nil _)
        | cons z zs =>
          rw [List.getLast?_cons_cons]
          rw [hsp] at hih
          exact hih
      · rw [splitOnNL, if_neg ha]
        cases hsp : splitOnNL (b :: cs') with
        | nil => exact absurd hsp (splitOnNL_ne_nil _)
        | cons z zs =>
          rw [hsp] at hih
          cases zs with
          | nil => simp
          | cons w ws =>
            rw [List.getLast?_cons_cons]
            rw [List.getLast?_cons_cons] at hih
            exact hih

/-- Rejoining the lines of a carriage-return-free string that does not end
in a newline restores it. -/
theorem intercalateNL_linesOf (c : Str) (hr : '\r' ∉ c) (hn : c.getLast? ≠ some '\n') :
    intercalateNL (linesOf c) = c := by
  by_cases hc : c = []
  · rw [hc]
    rfl
  · unfold linesOf
    rw [linesOfAux_eq_self _
        (fun l hl => stripCR_eq_self l (fun hm => hr (mem_splitOnNL_subset c l hl '\r' hm)))
        (getLast?_splitOnNL c hc hn),
      intercalateNL_splitOnNL]

/-- Substring search is infix search. -/
theorem containsSub_infix_iff (s p : Str) : containsSub s p = true ↔ p <:+: s := by
  induction s with
  | nil =>
    rw [containsSub]
    cases p with
    | nil => simp [List.isPrefixOf]
    | cons x t => simp [List.isPrefixOf]
  | cons c t ih =>
    rw [containsSub]
    simp only [Bool.or_eq_true]
    rw [List.isPrefixOf_iff_prefix, ih, List.infix_cons_iff]

/-- An infix of a string free of a pattern is also free of it. -/
theorem containsSub_infix_false (s l p : Str) (h : containsSub s p = false)
    (hinf : l <:+: s) : containsSub l p = false := by
  cases hc : containsSub l p
  · rfl
  · have := (containsSub_infix_iff l p).mp hc
    have := (containsSub_infix_iff s p).mpr (this.trans hinf)
    rw [h] at this
    cases this

/-- A prefix of a suffix is an infix. -/
theorem infix_of_prefix_suffix (p m s : Str) (h1 : p <+: m) (h2 : m <:+ s) : p <:+: s := by
  obtain ⟨r, hr⟩ := h1
  obtain ⟨a, ha⟩ := h2
  exact ⟨a, r, by rw [← ha, ← hr]; simp⟩

/-- An opener line contains a fence sequence. -/
theorem opensPrompt_contains (l : Str) (h : opensPrompt l = true) :
    containsSub l (S "```") = true ∨ containsSub l (S "~~~") = true := by
  unfold opensPrompt at h
  rcases Bool.or_eq_true _ _ |>.mp h with h1 | h1
  · left
    refine (containsSub_infix_iff _ _).mpr ?_
    refine infix_of_prefix_suffix _ (trimStartL l) _ ?_ (List.dropWhile_suffix _)
    have hp := List.isPrefixOf_iff_prefix.mp h1
    exact List.IsPrefix.trans (by decide) hp
  · right
    refine (containsSub_infix_iff _ _).mpr ?_
    refine infix_of_prefix_suffix _ (trimStartL l) _ ?_ (List.dropWhile_suffix _)
    have hp := List.isPrefixOf_iff_prefix.mp h1
    exact List.IsPrefix.trans (by decide) hp

/-- A closing line contains its fence string. -/
theorem closesWith_contains (l f : Str) (h : closesWith l f = true) :
    containsSub l f = true := by
  unfold closesWith at h
  refine (containsSub_infix_iff _ _).mpr ?_
  exact infix_of_prefix_suffix _ (trimStartL l) _ (List.isPrefixOf_iff_prefix.mp h)
    (List.dropWhile_suffix _)

/-- The remembered fence is one of the two fence strings. -/
theorem fenceOf_cases (t : Str) : fenceOf t = S "```" ∨ fenceOf t = S "~~~" := by
  unfold fenceOf
  by_cases h : strStartsWith t (S "~~~") = true
  · right; rw [if_pos h]
  · left; rw [if_neg h]

/-- Any infix of fence-free content neither opens a prompt fence nor
closes any fence. -/
theorem content_line_free (c l f : Str) (h3 : containsSub c (S "```") = false)
    (h4 : containsSub c (S "~~~") = false) (hl : l <:+: c)
    (hf : f = S "```" ∨ f = S "~~~") :
    opensPrompt l = false ∧ closesWith l f = false := by
  constructor
  · cases ho : opensPrompt l
    · rfl
    · exfalso
      rcases opensPrompt_contains l ho with hc | hc
      · rw [containsSub_infix_false c l _ h3 hl] at hc; cases hc
      · rw [containsSub_infix_false c l _ h4 hl] at hc; cases hc
  · cases hcw : closesWith l f
    · rfl
    · exfalso
      have hc := closesWith_contains l f hcw
      rcases hf with hf | hf
      · rw [hf] at hc
        rw [containsSub_infix_false c l _ h3 hl] at hc; cases hc
      · rw [hf] at hc
        rw [containsSub_infix_false c l _ h4 hl] at hc; cases hc

/-- The head segment is a prefix of the string. -/
theorem head_splitOnNL_prefix_self (s : Str) : ∃ h t, splitOnNL s = h :: t ∧ h <+: s := by
  induction s with
  | nil => exact ⟨[], [], rfl, List.nil_prefix⟩
  | cons c cs ih =>
    by_cases hc : c = '\n'
    · exact ⟨[], splitOnNL cs, by rw [splitOnNL, if_pos hc], List.nil_prefix⟩
    · obtain ⟨h, t, hsp, hpre⟩ := ih
      refine ⟨c :: h, t, ?_, ?_⟩
      · rw [splitOnNL, if_neg hc, hsp]
      · exact List.cons_prefix_cons.mpr ⟨rfl, hpre⟩

/-- Every segment is an infix of the string. -/
theorem splitOnNL_infix_of_mem (s : Str) : ∀ l ∈ splitOnNL s, l <:+: s := by
  induction s with
  | nil =>
    intro l hl
    simp [splitOnNL] at hl
    simp [hl]
  | cons c cs ih =>
    intro l hl
    rw [splitOnNL] at hl
    by_cases h : c = '\n'
    · rw [if_pos h] at hl
      rcases List.mem_cons.mp hl with heq | hmem
      · simp [heq]
      · exact (ih l hmem).trans ⟨[c], [], by simp⟩
    · rw [if_neg h] at hl
      cases hs : splitOnNL cs with
      | nil => exact absurd hs (splitOnNL_ne_nil cs)
      | cons hseg t =>
        rw [hs] at hl
        rcases List.mem_cons.mp hl with heq | hmem
        · obtain ⟨h', t', hsp, hpre⟩ := head_splitOnNL_prefix_self cs
          rw [hsp] at hs
          have hh : hseg = h' := ((List.cons.injEq _ _ _ _).mp hs).1.symm
          rw [heq, hh]
          exact ((List.cons_prefix_cons.mpr ⟨rfl, hpre⟩) : c :: h' <+: c :: cs).isInfix
        · have := ih l (hs ▸ List.mem_cons_of_mem hseg hmem)
          exact this.trans ⟨[c], [], by simp⟩

/-- Every reported line comes from a segment, either stripped or
verbatim. -/
theorem mem_linesOfAux (ls : List Str) : ∀ l ∈ linesOfAux ls,
    ∃ seg ∈ ls, l = stripCR seg ∨ l = seg := by
  induction ls with
  | nil => intro l hl; cases hl
  | cons x t ih =>
    cases t with
    | nil =>
      intro l hl
      by_cases hx : x = []
      · rw [show linesOfAux [x] = if x = [] then [] else [x] from rfl, if_pos hx] at hl
        cases hl
      · rw [show linesOfAux [x] = if x = [] then [] else [x] from rfl, if_neg hx] at hl
        have heq := List.mem_singleton.mp hl
        exact ⟨x, List.mem_cons_self x [], Or.inr heq⟩
    | cons y t' =>
      intro l hl
      rw [show linesOfAux (x :: y :: t') = stripCR x :: linesOfAux (y :: t') from rfl] at hl
      rcases List.mem_cons.mp hl with heq | hmem
      · exact ⟨x, List.mem_cons_self x _, Or.inl heq⟩
      · obtain ⟨seg, hseg, hor⟩ := ih l hmem
        exact ⟨seg, List.mem_cons_of_mem x hseg, hor⟩

/-- Stripping a carriage return keeps a prefix of the line. -/
theorem stripCR_prefix_self (l : Str) : stripCR l <+: l := by
  unfold stripCR
  split
  · exact List.dropLast_prefix l
  · exact List.prefix_refl l

/-- Every reported line is an infix of the string. -/
theorem linesOf_infix_of_mem (s : Str) : ∀ l ∈ linesOf s, l <:+: s := by
  intro l hl
  obtain ⟨seg, hseg, hor⟩ := mem_linesOfAux (splitOnNL s) l hl
  have hinf := splitOnNL_infix_of_mem s seg hseg
  rcases hor with heq | heq
  · rw [heq]
    exact List.IsInfix.trans (List.IsPrefix.isInfix (stripCR_prefix_self seg)) hinf
  · rw [heq]; exact hinf

/-- Every reported line is newline-free. -/
theorem mem_linesOf_noNL (s : Str) : ∀ l ∈ linesOf s, '\n' ∉ l := by
  intro l hl hmem
  obtain ⟨seg, hseg, hor⟩ := mem_linesOfAux (splitOnNL s) l hl
  have hnl := mem_splitOnNL_noNL s seg hseg
  rcases hor with heq | heq
  · rw [heq] at hmem
    exact hnl ((stripCR_prefix_self seg).subset hmem)
  · rw [heq] at hmem
    exact hnl hmem

/-- A trimmed-prefix test that succeeds on a prefix of a line succeeds on
the line. -/
theorem startsWith_trim_mono (l' l pat : Str) (hpat : pat ≠ []) (hp : l' <+: l)
    (h : strStartsWith (trimStartL l') pat = true) :
    strStartsWith (trimStartL l) pat = true := by
  obtain ⟨t, ht⟩ := hp
  unfold strStartsWith trimStartL at *
  rw [← ht, List.dropWhile_append]
  by_cases he : (l'.dropWhile Char.isWhitespace).isEmpty = true
  · rw [List.isEmpty_iff] at he
    rw [he] at h
    cases pat with
    | nil => exact absurd rfl hpat
    | cons a b => simp [List.isPrefixOf] at h
  · rw [if_neg he]
    exact List.isPrefixOf_iff_prefix.mpr
      ((List.isPrefixOf_iff_prefix.mp h).trans (List.prefix_append _ t))

/-- Openness propagates from a prefix of a line to the line. -/
theorem opensPrompt_prefix_mono (l' l : Str) (hp : l' <+: l) (h : opensPrompt l' = true) :
    opensPrompt l = true := by
  unfold opensPrompt at *
  rcases (Bool.or_eq_true _ _).mp h with h1 | h1
  · exact (Bool.or_eq_true _ _).mpr
      (Or.inl (startsWith_trim_mono l' l _ (by decide) hp h1))
  · exact (Bool.or_eq_true _ _).mpr
      (Or.inr (startsWith_trim_mono l' l _ (by decide) hp h1))

/-- A prefix of a non-opening line does not open. -/
theorem opensPrompt_prefix_antimono (l' l : Str) (hp : l' <+: l)
    (h : opensPrompt l = false) : opensPrompt l' = false := by
  cases ho : opensPrompt l'
  · rfl
  · rw [opensPrompt_prefix_mono l' l hp ho] at h
    cases h

/-- End-trimming splits a string into its trimmed part and a whitespace
tail. -/
theorem trimEndL_append_ws (s : Str) :
    ∃ w, s = trimEndL s ++ w ∧ ∀ c ∈ w, c.isWhitespace = true := by
  refine ⟨(s.reverse.takeWhile Char.isWhitespace).reverse, ?_, ?_⟩
  · unfold trimEndL
    conv_lhs => rw [← s.reverse_reverse]
    rw [← List.takeWhile_append_dropWhile (p := Char.isWhitespace) (l := s.reverse),
      List.reverse_append]
    rw [List.takeWhile_append_dropWhile]
  · intro c hc
    exact List.mem_takeWhile_imp (List.mem_reverse.mp hc)

/-- Splitting an appended string: the last segment of the first part is
glued to the first segment of the second. -/
theorem splitOnNL_append (a b : Str) :
    splitOnNL (a ++ b) = (splitOnNL a).dropLast
      ++ ((splitOnNL a).getLastD [] ++ (splitOnNL b).headD []) :: (splitOnNL b).tail := by
  induction a with
  | nil =>
    cases hb : splitOnNL b with
    | nil => exact absurd hb (splitOnNL_ne_nil b)
    | cons h t =>
      simp [splitOnNL, hb]
  | cons c cs ih =>
    by_cases hc : c = '\n'
    · show splitOnNL (c :: (cs ++ b)) = _
      rw [splitOnNL, if_pos hc, ih]
      rw [show splitOnNL (c :: cs) = [] :: splitOnNL cs by rw [splitOnNL, if_pos hc]]
      cases ha : splitOnNL cs with
      | nil => exact absurd ha (splitOnNL_ne_nil cs)
      | cons h t => simp
    · show splitOnNL (c :: (cs ++ b)) = _
      rw [splitOnNL, if_neg hc]
      cases hab : splitOnNL (cs ++ b) with
      | nil => exact absurd hab (splitOnNL_ne_nil _)
      | cons h t =>
        rw [hab] at ih
        cases hcs : splitOnNL cs with
        | nil => exact absurd hcs (splitOnNL_ne_nil cs)
        | cons h' t' =>
          rw [show splitOnNL (c :: cs) = (c :: h') :: t' by rw [splitOnNL, if_neg hc, hcs]]
          rw [hcs] at ih
          cases t' with
          | nil =>
            have ih' : h :: t
                = (h' ++ (splitOnNL b).headD []) :: (splitOnNL b).tail := ih
            have hh : h = h' ++ (splitOnNL b).headD [] :=
              (List.cons.injEq _ _ _ _ |>.mp ih').1
            have ht : t = (splitOnNL b).tail := (List.cons.injEq _ _ _ _ |>.mp ih').2
            show (c :: h) :: t
              = ((c :: h') ++ (splitOnNL b).headD []) :: (splitOnNL b).tail
            rw [hh, ht]
            rfl
          | cons y t'' =>
            have ih' : h :: t = h' :: ((y :: t'').dropLast
                ++ ((y :: t'').getLastD [] ++ (splitOnNL b).headD [])
                  :: (splitOnNL b).tail) := ih
            have hh : h = h' := (List.cons.injEq _ _ _ _ |>.mp ih').1
            have ht : t = (y :: t'').dropLast
                ++ ((y :: t'').getLastD [] ++ (splitOnNL b).headD []) :: (splitOnNL b).tail :=
              (List.cons.injEq _ _ _ _ |>.mp ih').2
            show (c :: h) :: t = (c :: h') :: ((y :: t'').dropLast
              ++ ((y :: t'').getLastD [] ++ (splitOnNL b).headD []) :: (splitOnNL b).tail)
            rw [hh, ht]

/-- Every segment of a prefix extends to a segment of the full string. -/
theorem splitOnNL_prefix_of_mem (a b : Str) :
    ∀ seg ∈ splitOnNL a, ∃ seg', seg' ∈ splitOnNL (a ++ b) ∧ seg <+: seg' := by
  intro seg hseg
  rw [splitOnNL_append]
  rcases List.eq_nil_or_concat (splitOnNL a) with hnil | ⟨xs, x, hx⟩
  · exact absurd hnil (splitOnNL_ne_nil a)
  · rw [List.concat_eq_append] at hx
    rw [hx] at hseg
    rw [hx, List.dropLast_concat, List.getLastD_concat]
    rcases List.mem_append.mp hseg with hmem | hmem
    · exact ⟨seg, List.mem_append_left _ hmem, List.prefix_refl seg⟩
    · have heq := List.mem_singleton.mp hmem
      refine ⟨x ++ (splitOnNL b).headD [], ?_, ?_⟩
      · exact List.mem_append_right _ (List.mem_cons_self _ _)
      · rw [heq]
        exact List.prefix_append _ _

/-- Segments already in reported-line form are reported (or are a dropped
final empty segment). -/
theorem mem_linesOfAux_of_mem (ls : List Str) (hfix : ∀ l ∈ ls, stripCR l = l) :
    ∀ seg ∈ ls, seg ∈ linesOfAux ls ∨ seg = [] := by
  induction ls with
  | nil => intro seg hseg; cases hseg
  | cons x t ih =>
    intro seg hseg
    cases t with
    | nil =>
      have heq := List.mem_singleton.mp hseg
      by_cases hx : x = []
      · right; rw [heq, hx]
      · left
        rw [show linesOfAux [x] = if x = [] then [] else [x] from rfl, if_neg hx, heq]
        exact List.mem_singleton.mpr rfl
    | cons y t' =>
      rw [show linesOfAux (x :: y :: t') = stripCR x :: linesOfAux (y :: t') from rfl,
        hfix x (List.mem_cons_self x _)]
      rcases List.mem_cons.mp hseg with heq | hmem
      · left; rw [heq]; exact List.mem_cons_self x _
      · rcases ih (fun l hl => hfix l (List.mem_cons_of_mem x hl)) seg hmem with hin | hnil
        · left; exact List.mem_cons_of_mem x hin
        · right; exact hnil

/-- In a carriage-return-free string, non-opening reported lines give
non-opening segments. -/
theorem splitOnNL_not_opens (s : Str) (hcr : '\r' ∉ s)
    (h : ∀ l ∈ linesOf s, opensPrompt l = false) :
    ∀ seg ∈ splitOnNL s, opensPrompt seg = false := by
  intro seg hseg
  have hfix : ∀ l ∈ splitOnNL s, stripCR l = l := fun l hl =>
    stripCR_eq_self l (fun hm => hcr (mem_splitOnNL_subset s l hl '\r' hm))
  rcases mem_linesOfAux_of_mem (splitOnNL s) hfix seg hseg with hin | hnil
  · exact h seg hin
  · rw [hnil]; decide

/-- Non-opening segments survive end-trimming. -/
theorem trimEnd_segments_not_opens (s : Str)
    (h : ∀ seg ∈ splitOnNL s, opensPrompt seg = false) :
    ∀ seg ∈ splitOnNL (trimEndL s), opensPrompt seg = false := by
  intro seg hseg
  obtain ⟨w, hw, _⟩ := trimEndL_append_ws s
  obtain ⟨seg', hseg', hpre⟩ := splitOnNL_prefix_of_mem (trimEndL s) w seg hseg
  rw [← hw] at hseg'
  exact opensPrompt_prefix_antimono seg seg' hpre (h seg' hseg')

/-- An empty line closes no non-empty fence. -/
theorem closesWith_nil (f : Str) (hf : f ≠ []) : closesWith [] f = false := by
  unfold closesWith trimStartL strStartsWith
  cases f with
  | nil => exact absurd rfl hf
  | cons a b => rfl

/-- Splitting after a leading newline. -/
theorem splitOnNL_cons_nl (s : Str) : splitOnNL ('\n' :: s) = [] :: splitOnNL s := by
  rw [splitOnNL]
  simp

/-- The fenced-block tail appended by `appendNewBlock` splits into an
opener line, the content's segments, a closer line and a final empty
segment. -/
theorem splitOnNL_blockTail (c : Str) :
    splitOnNL (S "```prompt\n" ++ (c ++ S "\n```\n"))
      = S "```prompt" :: (splitOnNL c ++ (S "```" :: [[]])) := by
  have e1 : S "```prompt\n" = S "```prompt" ++ ['\n'] := by decide
  have e2 : S "\n```\n" = '\n' :: S "```\n" := by decide
  rw [e1, e2, List.append_assoc]
  rw [show ['\n'] ++ (c ++ '\n' :: S "```\n") = '\n' :: (c ++ '\n' :: S "```\n") from rfl]
  rw [splitOnNL_append_cons, splitOnNL_of_noNL (S "```prompt") (by decide),
    splitOnNL_append_cons,
    show splitOnNL (S "```\n") = [S "```", []] from by decide]
  rfl

/-- Extracting from a freshly appended block recovers the content. -/
theorem extract_appendNewBlock (body c : Str)
    (hnoopen : ∀ seg ∈ splitOnNL (trimEndL body), opensPrompt seg = false)
    (hbcr : '\r' ∉ body)
    (h3 : containsSub c (S "```") = false) (h4 : containsSub c (S "~~~") = false)
    (hccr : '\r' ∉ c) :
    extract_code_block_content (appendNewBlock body c) = c := by
  have hcfix : ∀ l ∈ splitOnNL c, stripCR l = l := fun l hl =>
    stripCR_eq_self l (fun hm => hccr (mem_splitOnNL_subset c l hl '\r' hm))
  have hcfree : ∀ l ∈ splitOnNL c,
      opensPrompt l = false ∧ closesWith l (S "```") = false := fun l hl =>
    content_line_free c l (S "```") h3 h4 (splitOnNL_infix_of_mem c l hl) (Or.inl rfl)
  have htail : linesOfAux (S "```" :: [[]]) = [S "```"] := by decide
  simp only [appendNewBlock]
  by_cases hb : trimEndL body = []
  · rw [if_pos hb]
    unfold extract_code_block_content
    rw [show ([] : Str) ++ S "```prompt\n" ++ c ++ S "\n```\n"
        = S "```prompt\n" ++ (c ++ S "\n```\n") from by simp]
    unfold linesOf
    rw [splitOnNL_blockTail]
    rw [show S "```prompt" :: (splitOnNL c ++ (S "```" :: [[]]))
        = (S "```prompt" :: splitOnNL c) ++ (S "```" :: [[]]) from by simp]
    rw [linesOfAux_append _ _ (by simp), htail]
    rw [List.map_congr_left (g := id) (fun l hl => by
      rcases List.mem_cons.mp hl with heq | hmem
      · rw [heq]; decide
      · exact hcfix l hmem), List.map_id]
    rw [show (S "```prompt" :: splitOnNL c) ++ [S "```"]
        = S "```prompt" :: (splitOnNL c ++ [S "```"]) from by simp]
    rw [extractGo_openStep _ _ _ _ (by decide)]
    rw [show fenceOf (trimStartL (S "```prompt")) = S "```" from by decide]
    rw [show splitOnNL c ++ [S "```"] = splitOnNL c ++ S "```" :: [] from rfl]
    rw [extractGo_collect _ _ _ _ hcfree (by decide) (by decide)]
    exact intercalateNL_splitOnNL c
  · rw [if_neg hb]
    unfold extract_code_block_content
    obtain ⟨w, hw, _⟩ := trimEndL_append_ws body
    have hbasecr : ∀ l ∈ splitOnNL (trimEndL body), stripCR l = l := by
      intro l hl
      refine stripCR_eq_self l (fun hm => hbcr ?_)
      have hx := mem_splitOnNL_subset _ l hl '\r' hm
      rw [hw]
      exact List.mem_append_left w hx
    rw [show trimEndL body ++ S "\n\n" ++ S "```prompt\n" ++ c ++ S "\n```\n"
        = trimEndL body ++ '\n' :: ('\n' :: (S "```prompt\n" ++ (c ++ S "\n```\n"))) from by
      rw [show S "\n\n" = '\n' :: ['\n'] from by decide]; simp]
    unfold linesOf
    rw [splitOnNL_append_cons, splitOnNL_cons_nl, splitOnNL_blockTail]
    rw [show splitOnNL (trimEndL body)
          ++ [] :: (S "```prompt" :: (splitOnNL c ++ (S "```" :: [[]])))
        = (splitOnNL (trimEndL body) ++ [] :: S "```prompt" :: splitOnNL c)
          ++ (S "```" :: [[]]) from by simp]
    rw [linesOfAux_append _ _ (by simp), htail]
    rw [List.map_congr_left (g := id) (fun l hl => by
      rcases List.mem_append.mp hl with hmem | hmem
      · exact hbasecr l hmem
      · rcases List.mem_cons.mp hmem with heq | hmem'
        · rw [heq]; rfl
        · rcases List.mem_cons.mp hmem' with heq | hmem''
          · rw [heq]; decide
          · exact hcfix l hmem''), List.map_id]
    rw [show (splitOnNL (trimEndL body) ++ [] :: S "```prompt" :: splitOnNL c) ++ [S "```"]
        = (splitOnNL (trimEndL body) ++ [[]])
          ++ (S "```prompt" :: (splitOnNL c ++ [S "```"])) from by simp]
    rw [extractGo_skip _ _ _ (fun l hl => by
      rcases List.mem_append.mp hl with hmem | hmem
      · exact hnoopen l hmem
      · rw [List.mem_singleton.mp hmem]; decide)]
    rw [extractGo_openStep _ _ _ _ (by decide)]
    rw [show fenceOf (trimStartL (S "```prompt")) = S "```" from by decide]
    rw [show splitOnNL c ++ [S "```"] = splitOnNL c ++ S "```" :: [] from rfl]
    rw [extractGo_collect _ _ _ _ hcfree (by decide) (by decide)]
    exact intercalateNL_splitOnNL c

/-- Re-extracting after `update_prompt_block` recovers the new content, for
fence-safe CR-free bodies and fence-free CR-free content with no trailing
newline. -/
theorem extract_update (body c : Str)
    (hsafe : fenceSafeB (linesOf body) = true)
    (hbcr : '\r' ∉ body)
    (h3 : containsSub c (S "```") = false) (h4 : containsSub c (S "~~~") = false)
    (hccr : '\r' ∉ c) (hcnl : c.getLast? ≠ some '\n') :
    extract_code_block_content (update_prompt_block body c) = c := by
  cases hopen : findOpen (linesOf body) with
  | none =>
    have hno := (findOpen_none_iff (linesOf body)).mp hopen
    rw [show update_prompt_block body c = appendNewBlock body c from by
      unfold update_prompt_block; simp only [hopen]]
    exact extract_appendNewBlock body c
      (trimEnd_segments_not_opens body (splitOnNL_not_opens body hbcr hno)) hbcr h3 h4 hccr
  | some p =>
    obtain ⟨i, f⟩ := p
    cases hclose : findClose f ((linesOf body).drop (i + 1)) with
    | none =>
      exfalso
      unfold fenceSafeB at hsafe
      simp only [hopen, hclose] at hsafe
      exact Bool.noConfusion hsafe
    | some j =>
      obtain ⟨o, hgeto, ho, hfeq, hpre⟩ := findOpen_decomp (linesOf body) i f hopen
      obtain ⟨cl, hgetcl, hcl, -⟩ := findClose_decomp f ((linesOf body).drop (i + 1)) j hclose
      have hclo : opensPrompt cl = false := by
        unfold fenceSafeB at hsafe
        simp only [hopen, hclose, hgetcl, Bool.not_eq_true'] at hsafe
        exact hsafe
      have hfne : f ≠ [] := by
        rcases fenceOf_cases (trimStartL o) with hf | hf <;> rw [hfeq, hf] <;> decide
      have hclne : cl ≠ [] := fun he => by
        rw [he, closesWith_nil f hfne] at hcl; cases hcl
      have hjlt : j < ((linesOf body).drop (i + 1)).length := by
        by_contra hcon
        rw [List.get?_eq_none.mpr (Nat.le_of_not_lt hcon)] at hgetcl
        cases hgetcl
      have hD := get?_split ((linesOf body).drop (i + 1)) j cl hgetcl
      have hdl := List.drop_left (((linesOf body).drop (i + 1)).take j)
        (cl :: ((linesOf body).drop (i + 1)).drop (j + 1))
      rw [List.length_take, Nat.min_eq_left (Nat.le_of_lt hjlt)] at hdl
      have hdropj : (linesOf body).drop (i + 1 + j)
          = cl :: ((linesOf body).drop (i + 1)).drop (j + 1) := by
        rw [← List.drop_drop]
        conv_lhs => rw [hD]
        exact hdl
      have htake : (linesOf body).take (i + 1) = (linesOf body).take i ++ [o] := by
        rw [List.take_succ,
          show (linesOf body)[i]? = some o from by rw [← List.get?_eq_getElem?]; exact hgeto]
        rfl
      have hmemL : ∀ l ∈ linesOf body, '\n' ∉ l := mem_linesOf_noNL body
      have hfixL : ∀ l ∈ linesOf body, stripCR l = l := fun l hl =>
        stripCR_eq_self l (fun hm => hbcr ((linesOf_infix_of_mem body l hl).subset hm))
      have hoL : o ∈ linesOf body := List.get?_mem hgeto
      have hclL : cl ∈ linesOf body := List.drop_subset _ _ (List.get?_mem hgetcl)
      have hpostsub : ∀ l ∈ ((linesOf body).drop (i + 1)).drop (j + 1), l ∈ linesOf body :=
        fun l hl => List.drop_subset _ _ (List.drop_subset _ _ hl)
      have key : ∀ M : List Str, (∀ l ∈ M, '\n' ∉ l) → (∀ l ∈ M, stripCR l = l) →
          (∀ l ∈ M, opensPrompt l = false ∧ closesWith l f = false) →
          extractGo (linesOf (intercalateNL ((linesOf body).take (i + 1) ++ M
            ++ (linesOf body).drop (i + 1 + j)))) false [] = M := by
        intro M hMnl hMfix hMfree
        rw [htake, hdropj]
        rw [show ((linesOf body).take i ++ [o]) ++ M
              ++ (cl :: ((linesOf body).drop (i + 1)).drop (j + 1))
            = (linesOf body).take i
              ++ o :: (M ++ cl :: ((linesOf body).drop (i + 1)).drop (j + 1)) from by simp]
        have hAne : (linesOf body).take i
            ++ o :: (M ++ cl :: ((linesOf body).drop (i + 1)).drop (j + 1)) ≠ [] := by simp
        have hAnl : ∀ l ∈ (linesOf body).take i
            ++ o :: (M ++ cl :: ((linesOf body).drop (i + 1)).drop (j + 1)), '\n' ∉ l := by
          intro l hl
          rcases List.mem_append.mp hl with h | h
          · exact hmemL l (List.take_subset _ _ h)
          · rcases List.mem_cons.mp h with h | h
            · rw [h]; exact hmemL o hoL
            · rcases List.mem_append.mp h with h | h
              · exact hMnl l h
              · rcases List.mem_cons.mp h with h | h
                · rw [h]; exact hmemL cl hclL
                · exact hmemL l (hpostsub l h)
        rw [show linesOf (intercalateNL ((linesOf body).take i
              ++ o :: (M ++ cl :: ((linesOf body).drop (i + 1)).drop (j + 1))))
            = linesOfAux ((linesOf body).take i
              ++ o :: (M ++ cl :: ((linesOf body).drop (i + 1)).drop (j + 1)))
          from congrArg linesOfAux (splitOnNL_intercalateNL _ hAne hAnl)]
        have hfixX : ∀ l ∈ (linesOf body).take i ++ o :: (M ++ [cl]), stripCR l = l := by
          intro l hl
          rcases List.mem_append.mp hl with h | h
          · exact hfixL l (List.take_subset _ _ h)
          · rcases List.mem_cons.mp h with h | h
            · rw [h]; exact hfixL o hoL
            · rcases List.mem_append.mp h with h | h
              · exact hMfix l h
              · rw [List.mem_singleton.mp h]; exact hfixL cl hclL
        cases hpost : ((linesOf body).drop (i + 1)).drop (j + 1) with
        | nil =>
          rw [linesOfAux_eq_self _ hfixX (by
            rw [show (linesOf body).take i ++ o :: (M ++ [cl])
                = ((linesOf body).take i ++ o :: M) ++ [cl] from by simp,
              List.getLast?_concat]
            intro he
            exact hclne (Option.some.inj he))]
          rw [extractGo_skip _ _ _ hpre]
          rw [extractGo_openStep _ _ _ _ ho, ← hfeq]
          exact extractGo_collect M f cl [] hMfree hcl hclo
        | cons p t =>
          rw [show (linesOf body).take i ++ o :: (M ++ cl :: p :: t)
              = ((linesOf body).take i ++ o :: (M ++ [cl])) ++ (p :: t) from by simp]
          rw [linesOfAux_append _ _ (by simp)]
          rw [List.map_congr_left (g := id) hfixX, List.map_id]
          rw [show ((linesOf body).take i ++ o :: (M ++ [cl])) ++ linesOfAux (p :: t)
              = (linesOf body).take i ++ o :: (M ++ cl :: linesOfAux (p :: t)) from by simp]
          rw [extractGo_skip _ _ _ hpre]
          rw [extractGo_openStep _ _ _ _ ho, ← hfeq]
          exact extractGo_collect M f cl _ hMfree hcl hclo
      rw [show update_prompt_block body c
          = intercalateNL ((linesOf body).take (i + 1)
            ++ (if c = [] then [] else linesOf c) ++ (linesOf body).drop (i + 1 + j)) from by
        unfold update_prompt_block; simp only [hopen, hclose]]
      unfold extract_code_block_content
      by_cases hc : c = []
      · rw [if_pos hc, key [] (by intro l hl; cases hl) (by intro l hl; cases hl)
          (by intro l hl; cases hl), hc]
        rfl
      · rw [if_neg hc, key (linesOf c) (mem_linesOf_noNL c)
          (fun l hl => stripCR_eq_self l
            (fun hm => hccr ((linesOf_infix_of_mem c l hl).subset hm)))
          (fun l hl => content_line_free c l f h3 h4 (linesOf_infix_of_mem c l hl)
            (by rw [hfeq]; exact fenceOf_cases (trimStartL o)))]
        exact intercalateNL_linesOf c hccr hcnl

/-- `joinTerm` over a cons. -/
theorem joinTerm_cons (l : Str) (t : List Str) : joinTerm (l :: t) = l ++ '\n' :: joinTerm t := by
  unfold joinTerm
  rw [List.map_cons, List.flatten_cons, show S "\n" = ['\n'] from by decide]
  simp

/-- A non-empty line-terminated join ends in a newline. -/
theorem NL_suffix_joinTerm (RL : List Str) (h : RL ≠ []) : S "\n" <:+ joinTerm RL := by
  induction RL with
  | nil => exact absurd rfl h
  | cons l t ih =>
    rw [joinTerm_cons]
    cases t with
    | nil =>
      exact ⟨l, by rw [show S "\n" = ['\n'] from by decide]; rfl⟩
    | cons y t' =>
      exact (ih (by simp)).trans ⟨l ++ ['\n'], by simp⟩

/-- `ensureNL` is the identity on a non-empty line-terminated join. -/
theorem ensureNL_joinTerm (RL : List Str) (h : RL ≠ []) :
    ensureNL (joinTerm RL) = joinTerm RL := by
  unfold ensureNL strEndsWith
  rw [if_pos (List.isSuffixOf_iff_suffix.mpr (NL_suffix_joinTerm RL h))]

/-- `stripDashes` is the identity when the string does not start with a
dashes line. -/
theorem stripDashes_eq_self (y : Str) (h : ¬ (S "---\n" <+: y)) : stripDashes y = y := by
  rw [stripDashes.eq_def]
  split
  · rename_i rest
    exact absurd ⟨rest, by
      rw [show S "---\n" = '-' :: '-' :: '-' :: '\n' :: ([] : Str) from by decide]
      rfl⟩ h
  · rfl

/-- `stripIfDashes` is the identity when the string does not start with a
dashes line. -/
theorem stripIfDashes_eq_self (y : Str) (h : ¬ (S "---\n" <+: y)) : stripIfDashes y = y := by
  unfold stripIfDashes
  split
  · exact stripDashes_eq_self y h
  · rfl

/-- A newline-free first line other than `---` shields the join from the
dashes-prefix strip. -/
theorem not_dashnl_prefix (l rest : Str) (hnl : '\n' ∉ l) (hne : l ≠ S "---") :
    ¬ (S "---\n" <+: l ++ '\n' :: rest) := by
  intro hp
  obtain ⟨t, ht⟩ := hp
  rw [show S "---\n" = '-' :: '-' :: '-' :: '\n' :: [] from by decide] at ht
  cases l with
  | nil =>
    simp only [List.cons_append, List.nil_append] at ht
    injection ht with h1 _
    exact absurd h1 (by decide)
  | cons c1 l1 =>
    cases l1 with
    | nil =>
      simp only [List.cons_append, List.nil_append] at ht
      injection ht with _ ht
      injection ht with h2 _
      exact absurd h2 (by decide)
    | cons c2 l2 =>
      cases l2 with
      | nil =>
        simp only [List.cons_append, List.nil_append] at ht
        injection ht with _ ht
        injection ht with _ ht
        injection ht with h3 _
        exact absurd h3 (by decide)
      | cons c3 l3 =>
        cases l3 with
        | nil =>
          simp only [List.cons_append, List.nil_append] at ht
          injection ht with h1 ht
          injection ht with h2 ht
          injection ht with h3 _
          exact hne (by
            rw [show S "---" = '-' :: '-' :: '-' :: [] from by decide,
              ← h1, ← h2, ← h3])
        | cons c4 l4 =>
          simp only [List.cons_append, List.nil_append] at ht
          injection ht with _ ht
          injection ht with _ ht
          injection ht with _ ht
          injection ht with h4 _
          exact hnl (by rw [← h4]; simp)

/-- Splitting a line-terminated join followed by a remainder. -/
theorem splitOnNL_joinTerm_append (RL : List Str) (rest : Str)
    (h : ∀ l ∈ RL, '\n' ∉ l) :
    splitOnNL (joinTerm RL ++ rest) = RL ++ splitOnNL rest := by
  induction RL with
  | nil => rfl
  | cons l t ih =>
    rw [joinTerm_cons,
      show (l ++ '\n' :: joinTerm t) ++ rest = l ++ '\n' :: (joinTerm t ++ rest) from by simp,
      splitOnNL_append_cons, splitOnNL_of_noNL l (h l (List.mem_cons_self l t)),
      ih (fun x hx => h x (List.mem_cons_of_mem l hx))]
    rfl

/-- `splitAtDelim` finds the first delimiter line. -/
theorem splitAtDelim_append (RL after : List Str) (h : ∀ l ∈ RL, l ≠ S "---") :
    splitAtDelim (RL ++ S "---" :: after) = some (RL, after) := by
  induction RL with
  | nil =>
    show splitAtDelim (S "---" :: after) = _
    rw [splitAtDelim, if_pos rfl]
  | cons l t ih =>
    show splitAtDelim (l :: (t ++ S "---" :: after)) = _
    rw [splitAtDelim, if_neg (h l (List.mem_cons_self l t)),
      ih (fun x hx => h x (List.mem_cons_of_mem l hx))]
    rfl

/-- Quote-escaping introduces no new characters. -/
theorem mem_escQ (c : Char) (s : Str) (h : c ∈ escQ s) : c ∈ s := by
  induction s with
  | nil => cases h
  | cons a t ih =>
    rw [escQ] at h
    by_cases ha : a = '\''
    · rw [if_pos ha] at h
      rcases List.mem_cons.mp h with h | h
      · rw [ha, h]; exact List.mem_cons_self _ _
      · rcases List.mem_cons.mp h with h | h
        · rw [ha, h]; exact List.mem_cons_self _ _
        · exact List.mem_cons_of_mem a (ih h)
    · rw [if_neg ha] at h
      rcases List.mem_cons.mp h with h | h
      · rw [h]; exact List.mem_cons_self _ _
      · exact List.mem_cons_of_mem a (ih h)

/-- Rendering a newline-free scalar stays newline-free. -/
theorem renderScalar_noNL (s : Str) (h : '\n' ∉ s) : '\n' ∉ renderScalar s := by
  unfold renderScalar
  split
  · intro hm
    rcases List.mem_cons.mp hm with he | hm
    · exact absurd he (by decide)
    · rcases List.mem_append.mp hm with hm | hm
      · exact h (mem_escQ _ _ hm)
      · rcases List.mem_singleton.mp hm with he
        exact absurd he (by decide)
  · exact h

/-- Every entry renders at least one line. -/
theorem renderPair_ne_nil (p : Str × Yaml) : renderPair p ≠ [] := by
  obtain ⟨k, v⟩ := p
  cases v with
  | str s => simp [renderPair]
  | seq items => cases items <;> simp [renderPair]

/-- `renderYamlLines` over a cons. -/
theorem renderYamlLines_cons (p : Str × Yaml) (t : YMap) :
    renderYamlLines (p :: t) = renderPair p ++ renderYamlLines t := by
  unfold renderYamlLines
  rw [List.map_cons, List.flatten_cons]

/-- Every rendered line of a well-formed mapping is newline-free, not a
delimiter line, and non-empty. -/
theorem renderYamlLines_wf (m : YMap) (h : ∀ p ∈ m, wfKey p.1 ∧ wfVal p.2) :
    ∀ l ∈ renderYamlLines m, '\n' ∉ l ∧ l ≠ S "---" ∧ l ≠ [] := by
  intro l hl
  obtain ⟨block, hblock, hlb⟩ := List.mem_flatten.mp hl
  obtain ⟨p, hp, hpb⟩ := List.mem_map.mp hblock
  obtain ⟨k, v⟩ := p
  have hk := (h (k, v) hp).1
  have hv := (h (k, v) hp).2
  cases v with
  | str s =>
    rw [show renderPair (k, Yaml.str s) = [k ++ S ": " ++ renderScalar s] from rfl] at hpb
    rw [← hpb] at hlb
    have hleq := List.mem_singleton.mp hlb
    subst hleq
    refine ⟨?_, ?_, ?_⟩
    · intro hm
      rcases List.mem_append.mp hm with hm | hm
      · rcases List.mem_append.mp hm with hm | hm
        · exact hk.2.2.1 hm
        · exact absurd hm (by decide)
      · exact renderScalar_noNL s hv hm
    · intro he
      have : ':' ∈ S "---" := by
        rw [← he]
        exact List.mem_append_left _ (List.mem_append_right _ (by decide))
      exact absurd this (by decide)
    · intro he
      rcases List.append_eq_nil.mp he with ⟨he1, -⟩
      rcases List.append_eq_nil.mp he1 with ⟨-, he2⟩
      exact absurd he2 (by decide)
  | seq items =>
    cases items with
    | nil =>
      rw [show renderPair (k, Yaml.seq []) = [k ++ S ": []"] from rfl] at hpb
      rw [← hpb] at hlb
      have hleq := List.mem_singleton.mp hlb
      subst hleq
      refine ⟨?_, ?_, ?_⟩
      · intro hm
        rcases List.mem_append.mp hm with hm | hm
        · exact hk.2.2.1 hm
        · exact absurd hm (by decide)
      · intro he
        have : ':' ∈ S "---" := by
          rw [← he]
          exact List.mem_append_right _ (by decide)
        exact absurd this (by decide)
      · intro he
        rcases List.append_eq_nil.mp he with ⟨-, he2⟩
        exact absurd he2 (by decide)
    | cons it its =>
      rw [show renderPair (k, Yaml.seq (it :: its))
          = (k ++ [':']) :: (it :: its).map (fun x => S "- " ++ renderScalar x) from rfl] at hpb
      rw [← hpb] at hlb
      rcases List.mem_cons.mp hlb with hleq | hlb'
      · subst hleq
        refine ⟨?_, ?_, ?_⟩
        · intro hm
          rcases List.mem_append.mp hm with hm | hm
          · exact hk.2.2.1 hm
          · exact absurd hm (by decide)
        · intro he
          have : ':' ∈ S "---" := by
            rw [← he]
            exact List.mem_append_right _ (by decide)
          exact absurd this (by decide)
        · intro he
          rcases List.append_eq_nil.mp he with ⟨-, he2⟩
          exact absurd he2 (by decide)
      · obtain ⟨x, hx, hxl⟩ := List.mem_map.mp hlb'
        subst hxl
        refine ⟨?_, ?_, ?_⟩
        · intro hm
          rcases List.mem_append.mp hm with hm | hm
          · exact absurd hm (by decide)
          · exact renderScalar_noNL x (hv x hx) hm
        · intro he
          have : ' ' ∈ S "---" := by
            rw [← he]
            exact List.mem_append_left _ (by decide)
          exact absurd this (by decide)
        · intro he
          rcases List.append_eq_nil.mp he with ⟨he1, -⟩
          exact absurd he1 (by decide)

/-- A non-empty mapping renders a first line. -/
theorem renderYamlLines_exists_head (m : YMap) (h : m ≠ []) :
    ∃ l r, renderYamlLines m = l :: r := by
  cases m with
  | nil => exact absurd rfl h
  | cons p t =>
    rw [renderYamlLines_cons]
    cases hrp : renderPair p with
    | nil => exact absurd hrp (renderPair_ne_nil p)
    | cons a b => exact ⟨a, b ++ renderYamlLines t, by simp⟩

/-- `matterParse` inverts `render_frontmatter`: the rendered lines come
back as the frontmatter segment and the appended tail (shifted behind the
delimiter's blank line) as the content. -/
theorem matterParse_render (m : YMap) (tail : Str) (hm : m ≠ [])
    (hwf : ∀ p ∈ m, wfKey p.1 ∧ wfVal p.2) :
    matterParse (render_frontmatter m ++ tail)
      = (some (renderYamlLines m), '\n' :: tail) := by
  have hRLwf := renderYamlLines_wf m hwf
  obtain ⟨l₁, r₁, hRL⟩ := renderYamlLines_exists_head m hm
  have hnoNL : ∀ l ∈ renderYamlLines m, '\n' ∉ l := fun l hl => (hRLwf l hl).1
  have hjoin : ensureNL (stripIfDashes (yamlToString m)) = joinTerm (renderYamlLines m) := by
    rw [yamlToString, if_neg hm,
      stripIfDashes_eq_self _ (by
        rw [hRL, joinTerm_cons]
        exact not_dashnl_prefix l₁ _ (hnoNL l₁ (by rw [hRL]; exact List.mem_cons_self _ _))
          ((hRLwf l₁ (by rw [hRL]; exact List.mem_cons_self _ _)).2.1)),
      ensureNL_joinTerm _ (by rw [hRL]; simp)]
  have hsplit : splitOnNL (render_frontmatter m ++ tail)
      = S "---" :: (renderYamlLines m ++ S "---" :: [] :: splitOnNL tail) := by
    unfold render_frontmatter
    rw [hjoin]
    rw [show (S "---\n" ++ joinTerm (renderYamlLines m) ++ S "---\n\n") ++ tail
        = S "---" ++ '\n' :: (joinTerm (renderYamlLines m)
            ++ (S "---" ++ '\n' :: ('\n' :: tail))) from by
      rw [show S "---\n" = S "---" ++ ['\n'] from by decide,
        show S "---\n\n" = S "---" ++ '\n' :: '\n' :: [] from by decide]
      simp]
    rw [splitOnNL_append_cons, splitOnNL_of_noNL (S "---") (by decide),
      splitOnNL_joinTerm_append _ _ hnoNL, splitOnNL_append_cons,
      splitOnNL_of_noNL (S "---") (by decide), splitOnNL_cons_nl]
    rfl
  unfold matterParse
  rw [hsplit]
  rw [show (match S "---" :: (renderYamlLines m ++ S "---" :: [] :: splitOnNL tail) with
      | [] => ((none : Option (List Str)), render_frontmatter m ++ tail)
      | first :: rest =>
        if first = S "---" then
          match splitAtDelim rest with
          | some (fmLines, after) => (some fmLines, intercalateNL after)
          | none => (none, render_frontmatter m ++ tail)
        else (none, render_frontmatter m ++ tail))
      = (if S "---" = S "---" then
          match splitAtDelim (renderYamlLines m ++ S "---" :: [] :: splitOnNL tail) with
          | some (fmLines, after) => (some fmLines, intercalateNL after)
          | none => (none, render_frontmatter m ++ tail)
        else ((none : Option (List Str)), render_frontmatter m ++ tail)) from rfl]
  rw [if_pos rfl, splitAtDelim_append _ _ (fun l hl => (hRLwf l hl).2.1)]
  show (some (renderYamlLines m), intercalateNL ([] :: splitOnNL tail))
      = (some (renderYamlLines m), '\n' :: tail)
  rw [intercalateNL_cons _ _ (splitOnNL_ne_nil tail), intercalateNL_splitOnNL]
  rfl

/-- `unquoteAux` on a doubled quote. -/
theorem unquoteAux_qq (t : Str) :
    unquoteAux ('\'' :: '\'' :: t) = (unquoteAux t).map ('\'' :: ·) := by
  simp [unquoteAux]

/-- `unquoteAux` on an unquoted character. -/
theorem unquoteAux_cons_ne (c : Char) (y : Str) (hc : c ≠ '\'') (hy : y ≠ []) :
    unquoteAux (c :: y) = (unquoteAux y).map (c :: ·) := by
  cases y with
  | nil => exact absurd rfl hy
  | cons a y' =>
    rw [unquoteAux.eq_def]
    split
    · rename_i heq; simp at heq
    · rename_i heq; simp at heq
    · rename_i heq
      injection heq with h1 _
      exact absurd h1 hc
    · rename_i heq
      injection heq with h1 _
      exact absurd h1 hc
    · rename_i c' t' heq
      injection heq with h1 h2
      rw [h1, h2]

/-- Unquoting inverts quote-escaping. -/
theorem unquoteAux_escQ (s : Str) : unquoteAux (escQ s ++ ['\'']) = some s := by
  induction s with
  | nil => rfl
  | cons c t ih =>
    by_cases hc : c = '\''
    · rw [escQ, if_pos hc, hc]
      show unquoteAux ('\'' :: '\'' :: (escQ t ++ ['\''])) = _
      rw [unquoteAux_qq, ih]
      rfl
    · rw [escQ, if_neg hc]
      show unquoteAux (c :: (escQ t ++ ['\''])) = _
      rw [unquoteAux_cons_ne c _ hc (by simp), ih]
      rfl

/-- What an unquoted render guarantees. -/
theorem needsQuote_false_facts (v : Str) (h : needsQuote v = false) :
    v ≠ S "[]" ∧ strStartsWith v (S "'") = false := by
  unfold needsQuote at h
  simp only [Bool.or_eq_false_iff, decide_eq_false_iff_not] at h
  exact ⟨h.1.2, h.2⟩

/-- Parsing a rendered scalar restores it. -/
theorem parseScalar_renderScalar (s : Str) : parseScalar (renderScalar s) = .str s := by
  by_cases hq : needsQuote s = true
  · have hre : renderScalar s = '\'' :: (escQ s ++ ['\'']) := by
      unfold renderScalar
      rw [if_pos hq]
      simp
    rw [hre]
    unfold parseScalar
    rw [if_neg (by
        rw [show S "[]" = '[' :: ']' :: [] from by decide]
        simp),
      if_pos (by
        unfold strStartsWith
        exact List.isPrefixOf_iff_prefix.mpr ⟨escQ s ++ ['\''], by
          rw [show S "'" = ['\''] from by decide]
          rfl⟩)]
    rw [show unquote ('\'' :: (escQ s ++ ['\''])) = unquoteAux (escQ s ++ ['\'']) from rfl,
      unquoteAux_escQ]
  · have hq' : needsQuote s = false := by
      revert hq
      cases needsQuote s <;> simp
    obtain ⟨hne2, hns⟩ := needsQuote_false_facts s hq'
    have hre : renderScalar s = s := by
      unfold renderScalar
      rw [if_neg hq]
    rw [hre]
    unfold parseScalar
    rw [if_neg hne2]
    simp only [hns, Bool.false_eq_true, if_false]

/-- Parsing a rendered item restores it. -/
theorem parseItem_renderScalar (s : Str) : parseItem (renderScalar s) = s := by
  by_cases hq : needsQuote s = true
  · have hre : renderScalar s = '\'' :: (escQ s ++ ['\'']) := by
      unfold renderScalar
      rw [if_pos hq]
      simp
    rw [hre]
    unfold parseItem
    rw [if_pos (by
      unfold strStartsWith
      exact List.isPrefixOf_iff_prefix.mpr ⟨escQ s ++ ['\''], by
        rw [show S "'" = ['\''] from by decide]
        rfl⟩)]
    rw [show unquote ('\'' :: (escQ s ++ ['\''])) = unquoteAux (escQ s ++ ['\'']) from rfl,
      unquoteAux_escQ]
    rfl
  · have hq' : needsQuote s = false := by
      revert hq
      cases needsQuote s <;> simp
    obtain ⟨-, hns⟩ := needsQuote_false_facts s hq'
    have hre : renderScalar s = s := by
      unfold renderScalar
      rw [if_neg hq]
    rw [hre]
    unfold parseItem
    simp only [hns, Bool.false_eq_true, if_false]

/-- `takeWhile` up to the first colon of a key line. -/
theorem takeWhile_append_colon (k r : Str) (hk : ':' ∉ k) :
    (k ++ ':' :: r).takeWhile (· ≠ ':') = k := by
  induction k with
  | nil =>
    show List.takeWhile _ (':' :: r) = []
    rw [List.takeWhile_cons]
    simp
  | cons a t ih =>
    have ha : a ≠ ':' := fun he => hk (he ▸ List.mem_cons_self a t)
    show List.takeWhile _ (a :: (t ++ ':' :: r)) = a :: t
    rw [List.takeWhile_cons, if_pos (decide_eq_true ha),
      ih (fun hm => hk (List.mem_cons_of_mem a hm))]

/-- `dropWhile` up to the first colon of a key line. -/
theorem dropWhile_append_colon (k r : Str) (hk : ':' ∉ k) :
    (k ++ ':' :: r).dropWhile (· ≠ ':') = ':' :: r := by
  induction k with
  | nil =>
    show List.dropWhile _ (':' :: r) = ':' :: r
    rw [List.dropWhile_cons]
    simp
  | cons a t ih =>
    have ha : a ≠ ':' := fun he => hk (he ▸ List.mem_cons_self a t)
    show List.dropWhile _ (a :: (t ++ ':' :: r)) = ':' :: r
    rw [List.dropWhile_cons, if_pos (decide_eq_true ha)]
    exact ih (fun hm => hk (List.mem_cons_of_mem a hm))

/-- `splitKeyLine` on a rendered key line. -/
theorem splitKeyLine_mk (k r : Str) (hk : wfKey k) :
    splitKeyLine (k ++ ':' :: r) = some (k, r) := by
  simp only [splitKeyLine]
  rw [takeWhile_append_colon k r hk.2.1, dropWhile_append_colon k r hk.2.1]
  show (if k = [] || k.head? = some ' ' then none else some (k, r)) = some (k, r)
  rw [if_neg (by simp [hk.1, hk.2.2.2.1])]

/-- A rendered key line is not an item line. -/
theorem isItemLine_keyline (k r : Str) (hk : wfKey k) :
    isItemLine (k ++ ':' :: r) = false := by
  cases hi : isItemLine (k ++ ':' :: r)
  · rfl
  · exfalso
    unfold isItemLine strStartsWith at hi
    have hpre := List.isPrefixOf_iff_prefix.mp hi
    rw [show S "- " = '-' :: ' ' :: [] from by decide] at hpre
    obtain ⟨t, ht⟩ := hpre
    cases k with
    | nil =>
      simp only [List.cons_append, List.nil_append] at ht
      injection ht with h1 _
      exact absurd h1 (by decide)
    | cons a k' =>
      cases k' with
      | nil =>
        simp only [List.cons_append, List.nil_append] at ht
        injection ht with h1 ht2
        injection ht2 with h2 _
        exact absurd h2 (by decide)
      | cons b k'' =>
        simp only [List.cons_append, List.nil_append] at ht
        injection ht with h1 ht2
        injection ht2 with h2 _
        have hstart : strStartsWith (a :: b :: k'') (S "- ") = true := by
          unfold strStartsWith
          refine List.isPrefixOf_iff_prefix.mpr ⟨k'', ?_⟩
          rw [show S "- " = '-' :: ' ' :: [] from by decide, ← h1, ← h2]
          rfl
        rw [hk.2.2.2.2] at hstart
        exact Bool.noConfusion hstart

/-- One parser step on a rendered key line. -/
theorem yamlParseGo_keyStep (k r : Str) (ls : List Str)
    (pending : Option (Str × List Str)) (acc : YMap) (hk : wfKey k) :
    yamlParseGo ((k ++ ':' :: r) :: ls) pending acc
      = (if r = [] then yamlParseGo ls (some (k, [])) (flushPending pending acc)
         else if r.head? = some ' ' then
           yamlParseGo ls none (insertY (flushPending pending acc) k (parseScalar (r.drop 1)))
         else none) := by
  have hne : ¬(k ++ ':' :: r = []) := by simp
  rw [yamlParseGo.eq_def]
  simp only [hne, if_false, isItemLine_keyline k r hk, Bool.false_eq_true,
    splitKeyLine_mk k r hk]

/-- One parser step on a rendered item line. -/
theorem yamlParseGo_itemStep (x : Str) (ls : List Str) (k : Str) (done : List Str)
    (acc : YMap) :
    yamlParseGo ((S "- " ++ x) :: ls) (some (k, done)) acc
      = yamlParseGo ls (some (k, done ++ [parseItem x])) acc := by
  rw [show S "- " = '-' :: ' ' :: [] from by decide]
  have hit : isItemLine ('-' :: ' ' :: x) = true := by
    unfold isItemLine strStartsWith
    exact List.isPrefixOf_iff_prefix.mpr ⟨x, by
      rw [show S "- " = '-' :: ' ' :: [] from by decide]
      rfl⟩
  rw [yamlParseGo.eq_def]
  simp only [List.cons_append, List.nil_append, hit, if_true, List.cons_ne_nil,
    not_false_eq_true, if_false, reduceCtorEq]
  rfl

/-- The parser folds a run of rendered item lines into the pending
sequence. -/
theorem yamlParseGo_itemsLoop (items : List Str) (rest : List Str) (k : Str)
    (done : List Str) (acc : YMap) :
    yamlParseGo (items.map (fun it => S "- " ++ renderScalar it) ++ rest)
        (some (k, done)) acc
      = yamlParseGo rest (some (k, done ++ items)) acc := by
  induction items generalizing done with
  | nil => rw [List.map_nil, List.nil_append, List.append_nil]
  | cons it t ih =>
    rw [List.map_cons, List.cons_append, yamlParseGo_itemStep, parseItem_renderScalar, ih,
      List.append_assoc]
    rfl

/-- Inserting a fresh key appends. -/
theorem insertY_fresh (m : YMap) (k : Str) (v : Yaml) (h : k ∉ m.map Prod.fst) :
    insertY m k v = m ++ [(k, v)] := by
  induction m with
  | nil => rfl
  | cons p t ih =>
    obtain ⟨k', v'⟩ := p
    have hk' : ¬(k' = k) := fun he => h (by rw [List.map_cons, he]; exact List.mem_cons_self _ _)
    rw [insertY, if_neg hk',
      ih (fun hm => h (by rw [List.map_cons]; exact List.mem_cons_of_mem _ hm))]
    rfl

/-- The line parser inverts the renderer on well-formed mappings, relative
to any pending state whose flush leaves the mapping's keys fresh. -/
theorem yamlParseGo_render (m : YMap) : ∀ (pending : Option (Str × List Str)) (acc : YMap),
    (∀ p ∈ m, wfKey p.1 ∧ wfVal p.2) → (m.map Prod.fst).Nodup →
    (∀ p ∈ m, p.1 ∉ (flushPending pending acc).map Prod.fst) →
    yamlParseGo (renderYamlLines m) pending acc = some (flushPending pending acc ++ m) := by
  induction m with
  | nil =>
    intro pending acc _ _ _
    rw [show renderYamlLines [] = [] from rfl,
      show yamlParseGo [] pending acc = some (flushPending pending acc) from rfl,
      List.append_nil]
  | cons p t ih =>
    intro pending acc hwf hnd hfresh
    obtain ⟨k, v⟩ := p
    have hk := (hwf (k, v) (List.mem_cons_self _ _)).1
    have hv := (hwf (k, v) (List.mem_cons_self _ _)).2
    have hkfresh : k ∉ (flushPending pending acc).map Prod.fst :=
      hfresh (k, v) (List.mem_cons_self _ _)
    have hndc : (k :: t.map Prod.fst).Nodup := by
      rw [List.map_cons] at hnd
      exact hnd
    have hknotint : k ∉ t.map Prod.fst := (List.nodup_cons.mp hndc).1
    have hndt : (t.map Prod.fst).Nodup := (List.nodup_cons.mp hndc).2
    have hwt : ∀ q ∈ t, wfKey q.1 ∧ wfVal q.2 := fun q hq => hwf q (List.mem_cons_of_mem _ hq)
    have hfresh' : ∀ (w : Yaml) (q : Str × Yaml), q ∈ t →
        q.1 ∉ ((flushPending pending acc ++ [(k, w)]).map Prod.fst) := by
      intro w q hq
      rw [List.map_append]
      intro hmem
      rcases List.mem_append.mp hmem with hmem | hmem
      · exact hfresh q (List.mem_cons_of_mem _ hq) hmem
      · have heq : q.1 = k := List.mem_singleton.mp hmem
        exact hknotint (heq ▸ List.mem_map_of_mem Prod.fst hq)
    cases v with
    | str s =>
      rw [renderYamlLines_cons,
        show renderPair (k, Yaml.str s) = [k ++ S ": " ++ renderScalar s] from rfl,
        show [k ++ S ": " ++ renderScalar s] ++ renderYamlLines t
          = (k ++ S ": " ++ renderScalar s) :: renderYamlLines t from rfl,
        show k ++ S ": " ++ renderScalar s = k ++ ':' :: (' ' :: renderScalar s) from by
          rw [show S ": " = ':' :: ' ' :: [] from by decide]
          simp,
        yamlParseGo_keyStep k _ _ _ _ hk,
        if_neg (by simp),
        if_pos (show (' ' :: renderScalar s).head? = some ' ' from rfl),
        show ((' ' :: renderScalar s).drop 1) = renderScalar s from rfl,
        parseScalar_renderScalar,
        insertY_fresh _ _ _ hkfresh,
        ih none _ hwt hndt (fun q hq => hfresh' (Yaml.str s) q hq)]
      show some ((flushPending pending acc ++ [(k, Yaml.str s)]) ++ t)
          = some (flushPending pending acc ++ (k, Yaml.str s) :: t)
      rw [List.append_assoc]
      rfl
    | seq items =>
      cases items with
      | nil =>
        rw [renderYamlLines_cons,
          show renderPair (k, Yaml.seq []) = [k ++ S ": []"] from rfl,
          show [k ++ S ": []"] ++ renderYamlLines t
            = (k ++ S ": []") :: renderYamlLines t from rfl,
          show k ++ S ": []" = k ++ ':' :: (' ' :: '[' :: ']' :: []) from by
            rw [show S ": []" = ':' :: ' ' :: '[' :: ']' :: [] from by decide],
          yamlParseGo_keyStep k _ _ _ _ hk,
          if_neg (by simp),
          if_pos (show (' ' :: '[' :: ']' :: ([] : Str)).head? = some ' ' from rfl),
          show ((' ' :: '[' :: ']' :: ([] : Str)).drop 1) = '[' :: ']' :: [] from rfl,
          show parseScalar ('[' :: ']' :: []) = Yaml.seq [] from by
            unfold parseScalar
            rw [if_pos (by decide)],
          insertY_fresh _ _ _ hkfresh,
          ih none _ hwt hndt (fun q hq => hfresh' (Yaml.seq []) q hq)]
        show some ((flushPending pending acc ++ [(k, Yaml.seq [])]) ++ t)
            = some (flushPending pending acc ++ (k, Yaml.seq []) :: t)
        rw [List.append_assoc]
        rfl
      | cons it its =>
        rw [renderYamlLines_cons,
          show renderPair (k, Yaml.seq (it :: its))
            = (k ++ [':']) :: (it :: its).map (fun x => S "- " ++ renderScalar x) from rfl,
          List.cons_append,
          show k ++ [':'] = k ++ ':' :: [] from rfl,
          yamlParseGo_keyStep k [] _ _ _ hk,
          if_pos rfl,
          yamlParseGo_itemsLoop,
          show ([] : List Str) ++ (it :: its) = it :: its from rfl,
          ih (some (k, it :: its)) _ hwt hndt (fun q hq => by
            have : flushPending (some (k, it :: its)) (flushPending pending acc)
                = flushPending pending acc ++ [(k, Yaml.seq (it :: its))] := by
              show insertY (flushPending pending acc) k (Yaml.seq (it :: its)) = _
              exact insertY_fresh _ _ _ hkfresh
            rw [this]
            exact hfresh' (Yaml.seq (it :: its)) q hq),
          show flushPending (some (k, it :: its)) (flushPending pending acc)
            = insertY (flushPending pending acc) k (Yaml.seq (it :: its)) from rfl,
          insertY_fresh _ _ _ hkfresh,
          List.append_assoc]
        rfl

/-- Deserializing the rendered lines of a well-formed mapping restores
the mapping. -/
theorem parse_frontmatter_render (m : YMap) (h : WfMap m) :
    parse_frontmatter_map (some (renderYamlLines m)) = m := by
  show (yamlParseGo (renderYamlLines m) none []).getD [] = m
  rw [yamlParseGo_render m none [] h.1 h.2 (by intro q hq; simp [flushPending])]
  rfl

/-- A successful lookup is a member. -/
theorem lookupY_mem (m : YMap) (k : Str) (v : Yaml) (h : lookupY m k = some v) : (k, v) ∈ m := by
  induction m with
  | nil => cases h
  | cons p t ih =>
    obtain ⟨k', v'⟩ := p
    rw [lookupY] at h
    by_cases hk : k' = k
    · rw [if_pos hk] at h
      injection h with h
      rw [← h, hk]
      exact List.mem_cons_self _ _
    · rw [if_neg hk] at h
      exact List.mem_cons_of_mem _ (ih h)

/-- Looking up the just-inserted key. -/
theorem lookupY_insertY_self (m : YMap) (k : Str) (v : Yaml) :
    lookupY (insertY m k v) k = some v := by
  induction m with
  | nil => simp [insertY, lookupY]
  | cons p t ih =>
    obtain ⟨k', v'⟩ := p
    rw [insertY]
    by_cases hk : k' = k
    · rw [if_pos hk, lookupY, if_pos rfl]
    · rw [if_neg hk, lookupY, if_neg hk]
      exact ih

/-- Inserting one key leaves the others' lookups unchanged. -/
theorem lookupY_insertY_ne (m : YMap) (k : Str) (v : Yaml) (u : Str) (h : k ≠ u) :
    lookupY (insertY m k v) u = lookupY m u := by
  induction m with
  | nil => simp [insertY, lookupY, h]
  | cons p t ih =>
    obtain ⟨k', v'⟩ := p
    rw [insertY]
    by_cases hk : k' = k
    · rw [if_pos hk, lookupY, if_neg h, lookupY, if_neg (hk ▸ h)]
    · rw [if_neg hk, lookupY, lookupY]
      by_cases hku : k' = u
      · rw [if_pos hku, if_pos hku]
      · rw [if_neg hku, if_neg hku]
        exact ih

/-- Removal yields a sublist. -/
theorem removeY_sublist (m : YMap) (k : Str) : List.Sublist (removeY m k) m := by
  induction m with
  | nil => exact List.Sublist.refl []
  | cons p t ih =>
    obtain ⟨k', v'⟩ := p
    rw [removeY]
    by_cases hk : k' = k
    · rw [if_pos hk]
      exact ih.cons _
    · rw [if_neg hk]
      exact ih.cons₂ _

/-- Removing one key leaves the others' lookups unchanged. -/
theorem lookupY_removeY_ne (m : YMap) (k u : Str) (h : k ≠ u) :
    lookupY (removeY m k) u = lookupY m u := by
  induction m with
  | nil => rfl
  | cons p t ih =>
    obtain ⟨k', v'⟩ := p
    rw [removeY]
    by_cases hk : k' = k
    · rw [if_pos hk, lookupY, if_neg (hk ▸ h)]
      exact ih
    · rw [if_neg hk, lookupY, lookupY]
      by_cases hku : k' = u
      · rw [if_pos hku, if_pos hku]
      · rw [if_neg hku, if_neg hku]
        exact ih

/-- Members after an insert. -/
theorem mem_insertY (m : YMap) (k : Str) (v : Yaml) (p : Str × Yaml)
    (h : p ∈ insertY m k v) : p = (k, v) ∨ p ∈ m := by
  induction m with
  | nil =>
    rw [show insertY [] k v = [(k, v)] from rfl] at h
    exact Or.inl (List.mem_singleton.mp h)
  | cons q t ih =>
    obtain ⟨k', v'⟩ := q
    rw [insertY] at h
    by_cases hk : k' = k
    · rw [if_pos hk] at h
      rcases List.mem_cons.mp h with he | hm
      · exact Or.inl he
      · exact Or.inr (List.mem_cons_of_mem _ hm)
    · rw [if_neg hk] at h
      rcases List.mem_cons.mp h with he | hm
      · exact Or.inr (he ▸ List.mem_cons_self _ _)
      · rcases ih hm with he | hm'
        · exact Or.inl he
        · exact Or.inr (List.mem_cons_of_mem _ hm')

/-- The key list after an insert. -/
theorem map_fst_insertY (m : YMap) (k : Str) (v : Yaml) :
    (insertY m k v).map Prod.fst
      = if k ∈ m.map Prod.fst then m.map Prod.fst else m.map Prod.fst ++ [k] := by
  induction m with
  | nil => simp [insertY]
  | cons p t ih =>
    obtain ⟨k', v'⟩ := p
    rw [insertY]
    by_cases hk : k' = k
    · rw [if_pos hk, List.map_cons, List.map_cons,
        if_pos (by rw [hk]; exact List.mem_cons_self _ _)]
      rw [hk]
    · rw [if_neg hk, List.map_cons, List.map_cons, ih]
      by_cases hmem : k ∈ t.map Prod.fst
      · rw [if_pos hmem, if_pos (List.mem_cons_of_mem _ hmem)]
      · rw [if_neg hmem, if_neg (by
          intro hc
          rcases List.mem_cons.mp hc with he | hm
          · exact hk he.symm
          · exact hmem hm)]
        rfl

/-- Insertion of a well-formed entry preserves well-formedness. -/
theorem insertY_WfMap (m : YMap) (k : Str) (v : Yaml) (h : WfMap m) (hk : wfKey k)
    (hv : wfVal v) : WfMap (insertY m k v) := by
  constructor
  · intro p hp
    rcases mem_insertY m k v p hp with he | hm
    · rw [he]
      exact ⟨hk, hv⟩
    · exact h.1 p hm
  · rw [map_fst_insertY]
    split
    · exact h.2
    · rename_i hnotin
      refine List.nodup_append.mpr ⟨h.2, List.nodup_singleton k, ?_⟩
      intro a ha hb
      rw [List.mem_singleton.mp hb] at ha
      exact hnotin ha

/-- Removal preserves well-formedness. -/
theorem removeY_WfMap (m : YMap) (k : Str) (h : WfMap m) : WfMap (removeY m k) := by
  constructor
  · intro p hp
    exact h.1 p ((removeY_sublist m k).subset hp)
  · exact List.Nodup.sublist ((removeY_sublist m k).map Prod.fst) h.2

/-- Normalization-fixed tags pass through `filterMap` untouched. -/
theorem filterMap_normalize_id (ts : List Str) (h : ∀ t ∈ ts, normalize_tag t = some t) :
    ts.filterMap normalize_tag = ts := by
  induction ts with
  | nil => rfl
  | cons t ts ih =>
    rw [List.filterMap_cons, h t (List.mem_cons_self _ _),
      ih (fun x hx => h x (List.mem_cons_of_mem t hx))]

/-- A string extracted from a well-formed mapping is newline-free. -/
theorem extract_string_wf (m : YMap) (k s : Str) (hm : WfMap m)
    (h : extract_string m k = some s) : '\n' ∉ s := by
  unfold extract_string at h
  cases hl : lookupY m k with
  | none => rw [hl] at h; cases h
  | some v =>
    rw [hl] at h
    cases v with
    | str s' =>
      injection h with h
      have := (hm.1 (k, .str s') (lookupY_mem m k _ hl)).2
      rw [← h]
      exact this
    | seq items => cases h

/-- `extract_tags` on a stored sequence. -/
theorem extract_tags_seq (m : YMap) (key : Str) (items : List Str)
    (h : lookupY m key = some (.seq items)) :
    extract_tags m key = items.filterMap normalize_tag := by
  unfold extract_tags
  rw [h]

/-- Disabled mirroring is the identity. -/
theorem withPromptsMirror_off (fm : YMap) (st : FrontmatterSettings)
    (h : st.add_prompts_tag_to_tags = false) : withPromptsMirror fm st = fm := by
  unfold withPromptsMirror
  simp only [h, Bool.false_eq_true, if_false]

/-- Looking up an unrecognized key through the title merge. -/
theorem lookupY_withTitle_ne (fm : YMap) (P : PromptFile) (u : Str) (h : S "title" ≠ u) :
    lookupY (withTitle fm P) u = lookupY fm u := by
  unfold withTitle
  cases P.title.filter (fun t => !(trimL t).isEmpty) with
  | none => exact lookupY_removeY_ne fm _ u h
  | some t => exact lookupY_insertY_ne fm _ _ u h

/-- Looking up an unrecognized key through the description merge. -/
theorem lookupY_withDescription_ne (fm : YMap) (P : PromptFile) (u : Str)
    (h : S "description" ≠ u) : lookupY (withDescription fm P) u = lookupY fm u := by
  unfold withDescription
  cases P.description.filter (fun d => !(trimL d).isEmpty) with
  | none => exact lookupY_removeY_ne fm _ u h
  | some d => exact lookupY_insertY_ne fm _ _ u h

/-- The full merge leaves every unrecognized key's binding unchanged. -/
theorem lookupY_merged_ne (fm0 : YMap) (now : Str) (st : FrontmatterSettings)
    (P : PromptFile) (u : Str) (hmirror : st.add_prompts_tag_to_tags = false)
    (h1 : u ≠ S "created") (h2 : u ≠ normalize_frontmatter_key st.prompt_tags_property)
    (h3 : u ≠ S "title") (h4 : u ≠ S "description") (h5 : u ≠ S "id") :
    lookupY (mergedFrontmatter fm0 now st P) u = lookupY fm0 u := by
  unfold mergedFrontmatter
  rw [lookupY_removeY_ne _ _ _ (Ne.symm h5), lookupY_withDescription_ne _ _ _ (Ne.symm h4),
    lookupY_withTitle_ne _ _ _ (Ne.symm h3), withPromptsMirror_off _ _ hmirror]
  unfold withTags set_tags
  rw [lookupY_insertY_ne _ _ _ _ (Ne.symm h2)]
  unfold withCreated
  rw [lookupY_insertY_ne _ _ _ _ (Ne.symm h1)]

/-- The full merge stores the normalized tag sequence under the tag key. -/
theorem lookupY_merged_tags (fm0 : YMap) (now : Str) (st : FrontmatterSettings)
    (P : PromptFile) (hmirror : st.add_prompts_tag_to_tags = false)
    (hp2 : normalize_frontmatter_key st.prompt_tags_property ≠ S "title")
    (hp3 : normalize_frontmatter_key st.prompt_tags_property ≠ S "description")
    (hp4 : normalize_frontmatter_key st.prompt_tags_property ≠ S "id") :
    lookupY (mergedFrontmatter fm0 now st P)
        (normalize_frontmatter_key st.prompt_tags_property)
      = some (.seq (P.tags.filterMap normalize_tag)) := by
  unfold mergedFrontmatter
  rw [lookupY_removeY_ne _ _ _ (Ne.symm hp4), lookupY_withDescription_ne _ _ _ (Ne.symm hp3),
    lookupY_withTitle_ne _ _ _ (Ne.symm hp2), withPromptsMirror_off _ _ hmirror]
  unfold withTags set_tags
  exact lookupY_insertY_self _ _ _

/-- The full merge keeps a `created` binding, so the merged mapping is
never empty. -/
theorem merged_ne_nil (fm0 : YMap) (now : Str) (st : FrontmatterSettings) (P : PromptFile)
    (hmirror : st.add_prompts_tag_to_tags = false)
    (hp1 : normalize_frontmatter_key st.prompt_tags_property ≠ S "created") :
    mergedFrontmatter fm0 now st P ≠ [] := by
  intro he
  have hlook : lookupY (mergedFrontmatter fm0 now st P) (S "created")
      = some (.str ((P.created.orElse (fun _ => extract_string fm0 (S "created"))).getD now)) := by
    unfold mergedFrontmatter
    rw [lookupY_removeY_ne _ _ _ (by decide), lookupY_withDescription_ne _ _ _ (by decide),
      lookupY_withTitle_ne _ _ _ (by decide), withPromptsMirror_off _ _ hmirror]
    unfold withTags set_tags
    rw [lookupY_insertY_ne _ _ _ _ hp1]
    unfold withCreated
    exact lookupY_insertY_self _ _ _
  rw [he] at hlook
  cases hlook

/-- The full merge of well-formed inputs is well-formed. -/
theorem mergedFrontmatter_WfMap (fm0 : YMap) (now : Str) (st : FrontmatterSettings)
    (P : PromptFile) (hfm0 : WfMap fm0)
    (hmirror : st.add_prompts_tag_to_tags = false)
    (hptp : wfKey (normalize_frontmatter_key st.prompt_tags_property))
    (htags : ∀ t ∈ P.tags, normalize_tag t = some t ∧ '\n' ∉ t)
    (hnow : '\n' ∉ now)
    (hcreated : ∀ c ∈ P.created, '\n' ∉ c)
    (htitle : ∀ x ∈ P.title, '\n' ∉ x)
    (hdesc : ∀ x ∈ P.description, '\n' ∉ x) :
    WfMap (mergedFrontmatter fm0 now st P) := by
  have hW1 : WfMap (withCreated fm0 now P) := by
    refine insertY_WfMap _ _ _ hfm0 (by decide) ?_
    show '\n' ∉ (P.created.orElse (fun _ => extract_string fm0 (S "created"))).getD now
    cases hc : P.created with
    | some c => exact hcreated c (by rw [hc]; rfl)
    | none =>
      cases he : extract_string fm0 (S "created") with
      | some s => exact extract_string_wf fm0 _ s hfm0 he
      | none => exact hnow
  have hW2 : WfMap (withTags (withCreated fm0 now P) st P) := by
    refine insertY_WfMap _ _ _ hW1 hptp ?_
    show ∀ it ∈ P.tags.filterMap normalize_tag, '\n' ∉ it
    intro it hit
    obtain ⟨t, ht, he⟩ := List.mem_filterMap.mp hit
    rw [(htags t ht).1] at he
    injection he with he
    rw [← he]
    exact (htags t ht).2
  have hW3 : WfMap (withPromptsMirror (withTags (withCreated fm0 now P) st P) st) := by
    rw [withPromptsMirror_off _ _ hmirror]
    exact hW2
  have hW4 : WfMap (withTitle (withPromptsMirror (withTags (withCreated fm0 now P) st P) st) P) := by
    unfold withTitle
    cases hfil : P.title.filter (fun t => !(trimL t).isEmpty) with
    | none => exact removeY_WfMap _ _ hW3
    | some x =>
      refine insertY_WfMap _ _ _ hW3 (by decide) ?_
      show '\n' ∉ x
      cases ht : P.title with
      | none =>
        rw [ht] at hfil
        cases hfil
      | some a =>
        rw [ht] at hfil
        rw [show (some a).filter (fun t => !(trimL t).isEmpty)
            = if !(trimL a).isEmpty then some a else none from rfl] at hfil
        split at hfil
        · injection hfil with hfil
          rw [← hfil]
          exact htitle a (by rw [ht]; rfl)
        · cases hfil
  have hW5 : WfMap (withDescription
      (withTitle (withPromptsMirror (withTags (withCreated fm0 now P) st P) st) P) P) := by
    unfold withDescription
    cases hfil : P.description.filter (fun d => !(trimL d).isEmpty) with
    | none => exact removeY_WfMap _ _ hW4
    | some x =>
      refine insertY_WfMap _ _ _ hW4 (by decide) ?_
      show '\n' ∉ x
      cases ht : P.description with
      | none =>
        rw [ht] at hfil
        cases hfil
      | some a =>
        rw [ht] at hfil
        rw [show (some a).filter (fun d => !(trimL d).isEmpty)
            = if !(trimL a).isEmpty then some a else none from rfl] at hfil
        split at hfil
        · injection hfil with hfil
          rw [← hfil]
          exact hdesc a (by rw [ht]; rfl)
        · cases hfil
  exact removeY_WfMap _ _ hW5

/-- Writing a file then looking it up. -/
theorem lookupFS_insertFS_self (fs : FS) (p c : Str) :
    lookupFS (insertFS fs p c) p = some c := by
  induction fs with
  | nil => simp [insertFS, lookupFS]
  | cons e t ih =>
    obtain ⟨p', c'⟩ := e
    rw [insertFS]
    by_cases hp : p' = p
    · rw [if_pos hp, lookupFS, if_pos rfl]
    · rw [if_neg hp, lookupFS, if_neg hp]
      exact ih

/-- A leading newline does not change the extracted block. -/
theorem extract_cons_nl (b : Str) :
    extract_code_block_content ('\n' :: b) = extract_code_block_content b := by
  unfold extract_code_block_content linesOf
  rw [splitOnNL_cons_nl]
  cases hb : splitOnNL b with
  | nil => exact absurd hb (splitOnNL_ne_nil b)
  | cons x t =>
    rw [show linesOfAux ([] :: x :: t) = stripCR [] :: linesOfAux (x :: t) from rfl,
      show stripCR ([] : Str) = [] from rfl,
      show ([] : Str) :: linesOfAux (x :: t) = [([] : Str)] ++ linesOfAux (x :: t) from rfl,
      extractGo_skip _ _ _ (by
        intro l hl
        rw [List.mem_singleton.mp hl]
        decide)]

/-- Order-insensitive equality is reflexive. -/
theorem sameSetB_refl (a : List Str) : sameSetB a a = true := by
  unfold sameSetB
  simp [List.all_eq_true]

/-- C1 (amended): under the codec's actual contract — caller tags already
in normalized form and newline-free, a well-formed tag key not clashing
with the reserved keys, mirroring off, fence-free CR-free content without
a trailing newline, newline-free scalar fields, a prior file whose
frontmatter mapping is well-formed and whose body is CR-free and
fence-safe — writing and re-reading an entry restores the content and the
tag list exactly, and every unrecognized frontmatter key keeps its parsed
binding (the spec's byte-for-byte phrasing fails in general, see the
counterexample). -/
theorem codec_round_trip (fs : FS) (now : Str) (st : FrontmatterSettings) (P : PromptFile)
    (rp : Str)
    (hmirror : st.add_prompts_tag_to_tags = false)
    (hptp : wfKey (normalize_frontmatter_key st.prompt_tags_property))
    (hp1 : normalize_frontmatter_key st.prompt_tags_property ≠ S "created")
    (hp2 : normalize_frontmatter_key st.prompt_tags_property ≠ S "title")
    (hp3 : normalize_frontmatter_key st.prompt_tags_property ≠ S "description")
    (hp4 : normalize_frontmatter_key st.prompt_tags_property ≠ S "id")
    (hid : P.id = P.file_path)
    (hnorm : normalize_relative_path P.file_path = .ok rp)
    (htags : ∀ t ∈ P.tags, normalize_tag t = some t ∧ '\n' ∉ t)
    (h3 : containsSub P.content (S "```") = false)
    (h4 : containsSub P.content (S "~~~") = false)
    (hccr : '\r' ∉ P.content) (hcnl : P.content.getLast? ≠ some '\n')
    (hnow : '\n' ∉ now)
    (hcreated : ∀ c ∈ P.created, '\n' ∉ c)
    (htitle : ∀ x ∈ P.title, '\n' ∉ x)
    (hdesc : ∀ x ∈ P.description, '\n' ∉ x)
    (hfm0 : WfMap (frontmatterOf fs rp))
    (hbody : '\r' ∉ (parse_existing_prompt (lookupFS fs rp)).2)
    (hsafe : fenceSafeB (linesOf (parse_existing_prompt (lookupFS fs rp)).2) = true) :
    ∃ fs' Q, write_prompt_file fs now st P = .ok fs' ∧
      find_prompt_by_id (some fs') P.id st = .ok Q ∧
      Q.content = P.content ∧ Q.tags = P.tags ∧ sameSetB Q.tags P.tags = true ∧
      ∀ u, u ∉ recognizedKeys st →
        lookupY (frontmatterOf fs' rp) u = lookupY (frontmatterOf fs rp) u := by
  obtain ⟨M0, hM0⟩ : ∃ m, m = mergedFrontmatter (parse_existing_prompt (lookupFS fs rp)).1
      now st P := ⟨_, rfl⟩
  obtain ⟨B0, hB0⟩ : ∃ b, b = (parse_existing_prompt (lookupFS fs rp)).2 := ⟨_, rfl⟩
  obtain ⟨W, hW⟩ : ∃ w, w = render_frontmatter M0 ++ update_prompt_block B0 P.content :=
    ⟨_, rfl⟩
  have hWfM : WfMap M0 := by
    rw [hM0]
    exact mergedFrontmatter_WfMap _ now st P hfm0 hmirror hptp htags hnow hcreated htitle hdesc
  have hMne : M0 ≠ [] := by
    rw [hM0]
    exact merged_ne_nil _ now st P hmirror hp1
  have hwrite : write_prompt_file fs now st P = .ok (insertFS fs rp W) := by
    rw [hW, hM0, hB0]
    unfold write_prompt_file
    rw [if_neg (by rw [h3, h4]; simp)]
    simp only [hnorm]
  have hlookW : lookupFS (insertFS fs rp W) rp = some W := lookupFS_insertFS_self fs rp W
  have hmp : matterParse W
      = (some (renderYamlLines M0), '\n' :: update_prompt_block B0 P.content) := by
    rw [hW]
    exact matterParse_render M0 _ hMne hWfM.1
  have hfind : find_prompt_by_id (some (insertFS fs rp W)) P.id st = .ok
      { id := rp, file_path := rp,
        tags := extract_tags (parse_frontmatter_map (matterParse W).1)
          (normalize_frontmatter_key st.prompt_tags_property),
        created := extract_string (parse_frontmatter_map (matterParse W).1) (S "created"),
        content := extract_code_block_content (matterParse W).2,
        file_hash := some (compute_file_hash W),
        title := extract_string (parse_frontmatter_map (matterParse W).1) (S "title"),
        description := extract_string (parse_frontmatter_map (matterParse W).1)
          (S "description") } := by
    unfold find_prompt_by_id read_prompt_file
    rw [hid]
    simp only [hnorm, hlookW]
  have hparse : parse_frontmatter_map (matterParse W).1 = M0 := by
    rw [hmp]
    exact parse_frontmatter_render M0 hWfM
  have hcontent : extract_code_block_content (matterParse W).2 = P.content := by
    rw [hmp]
    show extract_code_block_content ('\n' :: update_prompt_block B0 P.content) = P.content
    rw [extract_cons_nl, hB0]
    exact extract_update _ P.content hsafe hbody h3 h4 hccr hcnl
  have htagsQ : extract_tags (parse_frontmatter_map (matterParse W).1)
      (normalize_frontmatter_key st.prompt_tags_property) = P.tags := by
    rw [hparse, extract_tags_seq M0 _ (P.tags.filterMap normalize_tag) (by
      rw [hM0]
      exact lookupY_merged_tags _ now st P hmirror hp2 hp3 hp4)]
    rw [filterMap_normalize_id P.tags (fun t ht => (htags t ht).1),
      filterMap_normalize_id P.tags (fun t ht => (htags t ht).1)]
  have hfmEq : frontmatterOf (insertFS fs rp W) rp = M0 := by
    unfold frontmatterOf
    rw [hlookW]
    show parse_frontmatter_map (matterParse W).1 = M0
    exact hparse
  refine ⟨insertFS fs rp W, _, hwrite, hfind, ?_, ?_, ?_, ?_⟩
  · show extract_code_block_content (matterParse W).2 = P.content
    exact hcontent
  · show extract_tags (parse_frontmatter_map (matterParse W).1)
        (normalize_frontmatter_key st.prompt_tags_property) = P.tags
    exact htagsQ
  · show sameSetB (extract_tags (parse_frontmatter_map (matterParse W).1)
        (normalize_frontmatter_key st.prompt_tags_property)) P.tags = true
    rw [htagsQ]
    exact sameSetB_refl P.tags
  · intro u hu
    have hu' : ¬(u = S "created" ∨ u = normalize_frontmatter_key st.prompt_tags_property
        ∨ u = S "title" ∨ u = S "description" ∨ u = S "id") := by
      intro hor
      apply hu
      unfold recognizedKeys
      rcases hor with h | h | h | h | h <;> simp [h]
    rw [hfmEq, hM0]
    exact lookupY_merged_ne _ now st P u hmirror (fun he => hu' (Or.inl he))
      (fun he => hu' (Or.inr (Or.inl he))) (fun he => hu' (Or.inr (Or.inr (Or.inl he))))
      (fun he => hu' (Or.inr (Or.inr (Or.inr (Or.inl he)))))
      (fun he => hu' (Or.inr (Or.inr (Or.inr (Or.inr he)))))

/-- Witness for C1 at a concrete one-entry vault write. -/
theorem codec_round_trip_witness :
    ∃ fs' Q, write_prompt_file [] (S "2024") defaultSettings
        (mkPrompt (S "a.md") [S "x"] none (S "hello") none none) = .ok fs' ∧
      find_prompt_by_id (some fs')
          (mkPrompt (S "a.md") [S "x"] none (S "hello") none none).id defaultSettings
        = .ok Q ∧
      Q.content = (mkPrompt (S "a.md") [S "x"] none (S "hello") none none).content ∧
      Q.tags = (mkPrompt (S "a.md") [S "x"] none (S "hello") none none).tags ∧
      sameSetB Q.tags (mkPrompt (S "a.md") [S "x"] none (S "hello") none none).tags = true ∧
      ∀ u, u ∉ recognizedKeys defaultSettings →
        lookupY (frontmatterOf fs' (S "a.md")) u = lookupY (frontmatterOf [] (S "a.md")) u :=
  codec_round_trip [] (S "2024") defaultSettings
    (mkPrompt (S "a.md") [S "x"] none (S "hello") none none) (S "a.md")
    (by decide) (by decide) (by decide) (by decide) (by decide) (by decide) rfl
    (by decide) (by decide) (by decide) (by decide) (by decide) (by decide) (by decide)
    (fun c hc => nomatch hc) (fun x hx => nomatch hx) (fun x hx => nomatch hx)
    (by decide) (by decide) (by decide)

/-- C1 counterexample: a prompt whose tag carries a leading `#` is written
with the tag normalized, so the read-back tag set differs from the
original; and an unrecognized key whose value was single-quoted in the
prior file is re-rendered unquoted, so it is no longer byte-equal after
the write even though its parsed binding survives. -/
theorem codec_round_trip_counterexample :
    (writeThenRead [] (S "T") defaultSettings
        (mkPrompt (S "a.md") [S "#a"] none (S "c") none none)).map
      (fun Q => sameSetB Q.tags [S "#a"]) = some false ∧
    (match write_prompt_file [(S "a.md", S "---\nfoo: 'b'\n---\nx")] (S "T") defaultSettings
        (mkPrompt (S "a.md") [] none (S "c") none none) with
     | .ok fs' => containsSub ((lookupFS fs' (S "a.md")).getD []) (S "foo: 'b'")
     | .error _ => true) = false ∧
    containsSub (S "---\nfoo: 'b'\n---\nx") (S "foo: 'b'") = true := by
  refine ⟨?_, ?_, ?_⟩ <;> decide

/-- C5 counterexample: write is an id-accepting operation, yet for an id
normalization rejects it surfaces `InvalidContent` when the content also
violates the fence guard — the guard runs before path validation. -/
theorem write_surfaces_invalid_content_for_bad_path :
    write_prompt_file [] (S "T") defaultSettings (mkPrompt (S "a/b") [] none (S "```") none none)
        = .error (.InvalidContent (S "Prompt content cannot include ``` or ~~~")) ∧
      normalize_relative_path (S "a/b")
        = .error (.InvalidFilePath (S "subfolders are not supported")) := by
  refine ⟨?_, by decide⟩
  unfold write_prompt_file
  simp [mkPrompt]
  decide

end PM
